import Mathlib

/-!
Verification of the citation-graph repository's identity-resolution and
aggregation core (`analyze_citations.py`, `visualize_citations.py`,
`get_citations.py`) against its natural-language specification.

The Python code is shallowly embedded: dict-shaped paper records become a
structure of optional fields, Python truthiness becomes explicit emptiness
tests, `str` operations are modelled on `List Char`, and the in-place
mutation performed by `merge_paper_lists` is modelled by explicit state
passing over a store of records addressed by position.
-/

namespace CitationGraph

/-! ### Python string primitives (modelled on `List Char`) -/

/-- Whitespace characters recognised by Python `str.split()` (ASCII part). -/
def pyIsSpace (c : Char) : Bool :=
  c = ' ' || c = '\t' || c = '\n' || c = '\x0d' || c = '\x0b' || c = '\x0c'

/-- ASCII lower-casing, the fragment of Python `str.lower()` exercised here. -/
def pyToLower (c : Char) : Char :=
  if c.toNat ≥ 65 && c.toNat ≤ 90 then Char.ofNat (c.toNat + 32) else c

/-- `s.lower()` on the character list. -/
def pyLower (l : List Char) : List Char := l.map pyToLower

/-- `s.lower()` on strings. -/
def pyLowerStr (s : String) : String := ⟨pyLower s.data⟩

/-- Accumulator-passing worker for `pySplit` (the accumulator holds the
current word, reversed). -/
def pySplitAux : List Char → List Char → List (List Char)
  | [], acc => if acc.isEmpty then [] else [acc.reverse]
  | c :: rest, acc =>
    if pyIsSpace c then
      if acc.isEmpty then pySplitAux rest []
      else acc.reverse :: pySplitAux rest []
    else pySplitAux rest (c :: acc)

/-- `s.split()`: split on runs of whitespace, dropping empty parts. -/
def pySplit (l : List Char) : List (List Char) := pySplitAux l []

/-- `" ".join(ws)`. -/
def pyJoin : List (List Char) → List Char
  | [] => []
  | [w] => w
  | w :: ws => w ++ ' ' :: pyJoin ws

/-- `" ".join(s.split())`: collapse whitespace runs to single spaces, trim. -/
def pyCollapse (l : List Char) : List Char := pyJoin (pySplit l)

/-- Worker for `pyReplaceSp`: `skip > 0` means the scanner is still
inside a needle occurrence that has already been replaced, so the next
`skip` characters are dropped without being rescanned (Python's
non-overlapping replacement). -/
def pyReplAux (needle : List Char) : List Char → Nat → List Char
  | [], _ => []
  | _ :: rest, skip + 1 => pyReplAux needle rest skip
  | c :: rest, 0 =>
    if needle.isPrefixOf (c :: rest) then
      ' ' :: pyReplAux needle rest (needle.length - 1)
    else c :: pyReplAux needle rest 0

/-- `s.replace(needle, " ")`: replace each (leftmost, non-overlapping)
occurrence of `needle` by a single space. -/
def pyReplaceSp (needle : List Char) (l : List Char) : List Char :=
  pyReplAux needle l 0

/-- `s.strip()`. -/
def pyStrip (l : List Char) : List Char :=
  ((l.dropWhile pyIsSpace).reverse.dropWhile pyIsSpace).reverse

/-- The punctuation needles removed by `normalize_title`, in source order:
colon, hyphen, the two three-character mojibake dash sequences present in
the source file, straight single quote (listed twice), straight double
quote (listed three times). -/
def punctNeedles : List (List Char) :=
  [[':'], ['-'], ['â', '€', '“'], ['â', '€', '”'],
   ['\''], ['\''], ['"'], ['"'], ['"']]

/-- The body of `normalize_title` on a character list: lowercase, collapse
whitespace, replace each punctuation needle by a space, collapse again,
strip, truncate to 150 characters. -/
def normTitleL (l : List Char) : List Char :=
  let n1 := pyCollapse (pyLower l)
  let n2 := punctNeedles.foldl (fun acc nd => pyReplaceSp nd acc) n1
  let n3 := pyCollapse n2
  (pyStrip n3).take 150

/-- `normalize_title` from `analyze_citations.py`. -/
def normalize_title (s : String) : String :=
  if s = "" then "" else ⟨normTitleL s.data⟩

/-! ### arXiv-id extraction from a DOI (`analyze_citations.py`) -/

/-- Try to match the regex `10\.48550/arxiv\.(\d+\.\d+)` at the start of
`l`, returning the captured group `\d+\.\d+` (greedy digit runs). -/
def matchArxivAt (l : List Char) : Option (List Char) :=
  let pat : List Char := ['1', '0', '.', '4', '8', '5', '5', '0', '/',
    'a', 'r', 'x', 'i', 'v', '.']
  if pat.isPrefixOf l then
    let rest := l.drop pat.length
    let d1 := rest.takeWhile Char.isDigit
    if d1.isEmpty then none
    else
      match rest.drop d1.length with
      | '.' :: rest2 =>
        let d2 := rest2.takeWhile Char.isDigit
        if d2.isEmpty then none else some (d1 ++ '.' :: d2)
      | _ => none
  else none

/-- `re.search`: leftmost match of the arXiv-DOI pattern anywhere in `l`. -/
def searchArxiv (l : List Char) : Option (List Char) :=
  match l with
  | [] => none
  | _ :: rest =>
    match matchArxivAt l with
    | some g => some g
    | none => searchArxiv rest

/-- `extract_arxiv_id_from_doi` from `analyze_citations.py`. -/
def extract_arxiv_id_from_doi (doi : String) : Option String :=
  if doi = "" then none
  else (searchArxiv (pyLower doi.data)).map (fun g => ⟨g⟩)

/-! ### Data model

A `PaperRecord` is a dict of optional fields; `none` models an absent key
(so `paper.get(f, "")` is `getD ""` and `paper[f]` is a fallible lookup).
Python truthiness of a string field is `getD "" ≠ ""`. -/

structure Paper where
  title : Option String := none
  doi : Option String := none
  arxiv_id : Option String := none
  openalex_id : Option String := none
  s2_id : Option String := none
  authors : List String := []
  year : Option Int := none
  venue : Option String := none
  source : Option String := none
  deriving DecidableEq, Repr

/-- Truthiness of an optional string field (`None`, absent and `""` are
all falsy in the Python code's `if paper.get(f):` tests). -/
def tS (o : Option String) : Bool := o.getD "" ≠ ""

/-- Truthiness of the optional integer `year` field (`None` and `0` falsy). -/
def tYear (o : Option Int) : Bool :=
  match o with
  | none => false
  | some y => y ≠ 0

/-- Record with every field absent; stands for the placeholder the
defaultdict would hold before any metadata is stored. -/
def defaultPaper : Paper := {}

/-- One entry of the input document's `papers` list.  `metadata = none`
models a null, absent or empty (falsy) metadata dict; `some m` a
non-empty dict, which is truthy even when every field of `m` is empty. -/
structure SeedEntry where
  input_doi : String
  metadata : Option Paper := none
  references : List Paper := []
  cited_by : List Paper := []
  deriving DecidableEq, Repr

/-! ### The three `get_paper_key` variants -/

/-- `get_paper_key` from `analyze_citations.py`: normalized title first,
then arXiv id recovered from the DOI, explicit arXiv id, DOI, OpenAlex
id, Semantic Scholar id. -/
def get_paper_key_analyze (paper : Paper) : Option String :=
  let title := paper.title.getD ""
  let titleKey : Option String :=
    if title ≠ "" then
      let normalized := normalize_title title
      if normalized ≠ "" then some ("title:" ++ normalized) else none
    else none
  match titleKey with
  | some k => some k
  | none =>
    let doi := paper.doi.getD ""
    let arxiv_id := paper.arxiv_id.getD ""
    match extract_arxiv_id_from_doi doi with
    | some a => some ("arxiv:" ++ a)
    | none =>
      if arxiv_id ≠ "" then some ("arxiv:" ++ pyLowerStr arxiv_id)
      else if doi ≠ "" then some ("doi:" ++ pyLowerStr doi)
      else if tS paper.openalex_id then
        some ("openalex:" ++ pyLowerStr (paper.openalex_id.getD ""))
      else if tS paper.s2_id then
        some ("s2:" ++ pyLowerStr (paper.s2_id.getD ""))
      else none

/-- `get_paper_key` from `visualize_citations.py`: DOI first, then arXiv
id, OpenAlex id, Semantic Scholar id, and finally the lowercased title
truncated to 100 characters. -/
def get_paper_key_viz (paper : Paper) : Option String :=
  if tS paper.doi then some ("doi:" ++ pyLowerStr (paper.doi.getD ""))
  else if tS paper.arxiv_id then
    some ("arxiv:" ++ pyLowerStr (paper.arxiv_id.getD ""))
  else if tS paper.openalex_id then
    some ("openalex:" ++ pyLowerStr (paper.openalex_id.getD ""))
  else if tS paper.s2_id then
    some ("s2:" ++ pyLowerStr (paper.s2_id.getD ""))
  else if tS paper.title then
    some ("title:" ++ ⟨(pyLower (paper.title.getD "").data).take 100⟩)
  else none

/-- The identifier-based part of `get_paper_key` from `get_citations.py`
(DOI, arXiv id, lowercased 100-character title). -/
def get_paper_key_cit (paper : Paper) : Option String :=
  if tS paper.doi then some ("doi:" ++ pyLowerStr (paper.doi.getD ""))
  else if tS paper.arxiv_id then
    some ("arxiv:" ++ pyLowerStr (paper.arxiv_id.getD ""))
  else if tS paper.title then
    some ("title:" ++ ⟨(pyLower (paper.title.getD "").data).take 100⟩)
  else none

/-- `get_paper_key` from `get_citations.py` as used over the record
store: the `f"unknown:{id(paper)}"` fallback names the record's store
position, the embedding's stand-in for the CPython object id. -/
def get_paper_key_store (paper : Paper) (pos : Nat) : String :=
  (get_paper_key_cit paper).getD ("unknown:" ++ toString pos)

/-- `get_seed_paper_label` from `analyze_citations.py`: the metadata
title (falling back to `"Unknown"` when absent or empty), truncated to 57
characters plus an ellipsis when longer than 60. -/
def get_seed_paper_label (entry : SeedEntry) : String :=
  let metadata := entry.metadata.getD defaultPaper
  let title := if tS metadata.title then metadata.title.getD "" else "Unknown"
  if title.data.length > 60 then ⟨title.data.take 57⟩ ++ "..." else title

/-! ### Spec-side key derivations (for the refinement claims)

These two definitions follow the wording of the specification / claims,
not the code, and exist only to be compared with the code-derived
functions above. -/

/-- Modelled from the spec: the §3 priority chain for canonical keys —
non-empty normalized title, arXiv id recovered from a DOI of the form
`10.48550/arxiv.<id>`, explicit arXiv id, DOI, OpenAlex id, Semantic
Scholar id; first satisfied namespace wins. -/
def specKeyPriority (paper : Paper) : Option String :=
  let candidates : List (Option String) :=
    [ (if normalize_title (paper.title.getD "") ≠ "" then
        some ("title:" ++ normalize_title (paper.title.getD "")) else none),
      (extract_arxiv_id_from_doi (paper.doi.getD "")).map (fun a => "arxiv:" ++ a),
      (if tS paper.arxiv_id then
        some ("arxiv:" ++ pyLowerStr (paper.arxiv_id.getD "")) else none),
      (if tS paper.doi then
        some ("doi:" ++ pyLowerStr (paper.doi.getD "")) else none),
      (if tS paper.openalex_id then
        some ("openalex:" ++ pyLowerStr (paper.openalex_id.getD "")) else none),
      (if tS paper.s2_id then
        some ("s2:" ++ pyLowerStr (paper.s2_id.getD "")) else none) ]
  (candidates.find? Option.isSome).join

/-- Modelled from the code's actual visualization priority, stated as a
candidate chain: DOI, arXiv id, OpenAlex id, S2 id, lowercased
100-character title. -/
def specKeyVizPriority (paper : Paper) : Option String :=
  let candidates : List (Option String) :=
    [ (if tS paper.doi then
        some ("doi:" ++ pyLowerStr (paper.doi.getD "")) else none),
      (if tS paper.arxiv_id then
        some ("arxiv:" ++ pyLowerStr (paper.arxiv_id.getD "")) else none),
      (if tS paper.openalex_id then
        some ("openalex:" ++ pyLowerStr (paper.openalex_id.getD "")) else none),
      (if tS paper.s2_id then
        some ("s2:" ++ pyLowerStr (paper.s2_id.getD "")) else none),
      (if tS paper.title then
        some ("title:" ++ ⟨(pyLower (paper.title.getD "").data).take 100⟩) else none) ]
  (candidates.find? Option.isSome).join

/-! ### Association-list primitives

Python dicts are insertion ordered; they are modelled as association
lists whose keys are unique, updated in place or appended. -/

/-- Lookup in an association list (first match). -/
def alookup {β : Type} (l : List (String × β)) (k : String) : Option β :=
  (l.find? (fun e => e.1 = k)).map (fun e => e.2)

/-- Update the (first) entry for `k` with `f`, or append `(k, init)` if
`k` is absent — the `defaultdict` access-then-mutate pattern. -/
def aupsert {β : Type} (l : List (String × β)) (k : String) (f : β → β)
    (init : β) : List (String × β) :=
  match l with
  | [] => [(k, f init)]
  | e :: rest =>
    if e.1 = k then (k, f e.2) :: rest else e :: aupsert rest k f init

/-- `d[k] = v`: overwrite the entry for `k`, or append it. -/
def aset {β : Type} (l : List (String × β)) (k : String) (v : β) :
    List (String × β) :=
  match l with
  | [] => [(k, v)]
  | e :: rest => if e.1 = k then (k, v) :: rest else e :: aset rest k v

/-- Python `set.add` on a membership-ordered list. -/
def insertFresh (l : List String) (k : String) : List String :=
  if k ∈ l then l else l ++ [k]

/-! ### `analyze_citations.analyze_citations` -/

/-- `(doi, title)` pair recorded for a contributing seed paper. -/
abbrev SeedRef := String × String

/-- One entry of the analysis `references_index` / `citing_index`:
first-seen metadata plus the list of per-occurrence seed attributions
(the code appends one pair per relation-list entry). -/
structure OccEntry where
  metadata : Option Paper := none
  seeds : List SeedRef := []
  deriving DecidableEq, Repr

/-- The seed key set of `analyze_citations` (`seed_keys`), as the
insertion-ordered list underlying the Python set. -/
def seedKeysAnalyze (papers : List SeedEntry) : List String :=
  papers.foldl
    (fun acc entry =>
      match entry.metadata with
      | none => acc
      | some m =>
        match get_paper_key_analyze m with
        | none => acc
        | some k => insertFresh acc k)
    []

/-- Record one relation occurrence in an index: create the entry on first
sight (storing a copy of the record as metadata) and append the seed
attribution pair. -/
def addOccurrence (idx : List (String × OccEntry)) (k : String)
    (record : Paper) (seedRef : SeedRef) : List (String × OccEntry) :=
  aupsert idx k
    (fun e =>
      { metadata := if e.metadata = none then some record else e.metadata,
        seeds := e.seeds ++ [seedRef] })
    {}

/-- The shared shape of the two index-building loops of
`analyze_citations` (one instantiated with `references`, one with
`cited_by`): skip entries without truthy metadata, resolve each related
record's key, and record the occurrence under the seed's `input_doi` and
display label. -/
def buildIndexAnalyze (rel : SeedEntry → List Paper)
    (papers : List SeedEntry) : List (String × OccEntry) :=
  papers.foldl
    (fun idx entry =>
      match entry.metadata with
      | none => idx
      | some _ =>
        (rel entry).foldl
          (fun idx r =>
            match get_paper_key_analyze r with
            | none => idx
            | some k =>
              addOccurrence idx k r (entry.input_doi, get_seed_paper_label entry))
          idx)
    []

/-- An element of the aggregated result lists (`cited_papers` /
`citing_papers` in `analyze_citations`). -/
structure AggEntry where
  key : String
  doi : String
  arxiv_id : String
  title : String
  authors : List String
  year : Option Int
  venue : String
  count : Nat
  seeds : List SeedRef
  is_in_seed_set : Bool
  deriving DecidableEq, Repr

/-- Build one aggregated output entry from an index entry. -/
def mkAggEntry (seedKeys : List String) (k : String) (e : OccEntry) :
    AggEntry :=
  let m := e.metadata.getD defaultPaper
  { key := k,
    doi := m.doi.getD "",
    arxiv_id := m.arxiv_id.getD "",
    title := m.title.getD "",
    authors := m.authors,
    year := m.year,
    venue := m.venue.getD "",
    count := e.seeds.length,
    seeds := e.seeds,
    is_in_seed_set := decide (k ∈ seedKeys) }

/-- The comparison underlying
`sort(key=lambda x: (-x[count], x["title"]))`. -/
def aggLE (a b : AggEntry) : Bool :=
  b.count < a.count || (a.count = b.count && a.title ≤ b.title)

/-- Insert `x` after every already-placed element `y` with `le y x`
(so elements comparing equal keep their original relative order). -/
def stableInsert {α : Type} (le : α → α → Bool) (x : α) :
    List α → List α
  | [] => [x]
  | y :: ys => if le y x then y :: stableInsert le x ys else x :: y :: ys

/-- Stable sort by `le` (Python `list.sort` is stable; a stable sort is
extensionally unique, so stable insertion sort models it exactly). -/
def pySort {α : Type} (le : α → α → Bool) (l : List α) : List α :=
  l.foldl (fun acc x => stableInsert le x acc) []

/-- Threshold filtering, seed exclusion and ranking applied to one index
(the body of the two result-building loops of `analyze_citations`). -/
def aggregate (seedKeys : List String) (idx : List (String × OccEntry))
    (k : Nat) : List AggEntry :=
  pySort aggLE
    (idx.filterMap
      (fun e =>
        if e.1 ∈ seedKeys then none
        else if k ≤ e.2.seeds.length then some (mkAggEntry seedKeys e.1 e.2)
        else none))

/-- `analyze_citations(data, k_cited, k_citing)`: the pair of aggregated
result lists `(cited_papers, citing_papers)`. -/
def analyze_citations (papers : List SeedEntry) (k_cited k_citing : Nat) :
    List AggEntry × List AggEntry :=
  let seedKeys := seedKeysAnalyze papers
  (aggregate seedKeys (buildIndexAnalyze (fun p => p.references) papers) k_cited,
   aggregate seedKeys (buildIndexAnalyze (fun p => p.cited_by) papers) k_citing)

/-! ### `visualize_citations.analyze_for_graph` -/

/-- A node record of the graph structure (the count field is `none` for
seed nodes, `some c_in` / `some c_out` for cited / citing nodes; the
`doi` field is only populated for seed nodes). -/
structure VizNode where
  key : String
  doi : Option String := none
  title : String
  authors : List String
  year : Option Int
  venue : String
  count : Option Nat := none
  deriving DecidableEq, Repr

/-- One entry of the visualization `references_index` / `citing_index`:
first-seen metadata plus the *set* of contributing seed keys (modelled as
an insertion-ordered duplicate-free list). -/
structure SetEntry where
  metadata : Option Paper := none
  seeds : List String := []
  deriving DecidableEq, Repr

/-- An edge triple `(source_key, target_key, edge_type)`. -/
abbrev Edge := String × String × String

/-- The seed key of a document entry in the visualization script
(`get_paper_key(paper["metadata"]) if paper.get("metadata") else None`,
with falsy keys skipped). -/
def vizSeedKey (entry : SeedEntry) : Option String :=
  entry.metadata.bind get_paper_key_viz

/-- The `seed_papers` dict of `analyze_for_graph`. -/
def vizSeedPapers (papers : List SeedEntry) : List (String × VizNode) :=
  papers.foldl
    (fun acc entry =>
      match entry.metadata with
      | none => acc
      | some m =>
        match get_paper_key_viz m with
        | none => acc
        | some k =>
          aset acc k
            { key := k,
              doi := some entry.input_doi,
              title := m.title.getD "Unknown",
              authors := m.authors,
              year := m.year,
              venue := m.venue.getD "" })
    []

/-- Record one relation occurrence in a visualization index: store the
first-seen metadata and add the seed key to the contributing set. -/
def addOccurrenceSet (idx : List (String × SetEntry)) (k : String)
    (record : Paper) (seedKey : String) : List (String × SetEntry) :=
  aupsert idx k
    (fun e =>
      { metadata := if e.metadata = none then some record else e.metadata,
        seeds := insertFresh e.seeds seedKey })
    {}

/-- The state threaded through the main loop of `analyze_for_graph`:
references index, citing index, and accumulated edge list. -/
structure VizState where
  refIdx : List (String × SetEntry) := []
  citIdx : List (String × SetEntry) := []
  edges : List Edge := []
  deriving DecidableEq, Repr

/-- One iteration of the main loop of `analyze_for_graph`: skip entries
with no (truthy) seed key, then process the references (adding
`seed → ref` edges) and the citing papers (adding `citing → seed`
edges). -/
def vizStep (st : VizState) (entry : SeedEntry) : VizState :=
  match vizSeedKey entry with
  | none => st
  | some seedKey =>
    let st1 := entry.references.foldl
      (fun st r =>
        match get_paper_key_viz r with
        | none => st
        | some refKey =>
          { st with
            refIdx := addOccurrenceSet st.refIdx refKey r seedKey,
            edges := st.edges ++ [(seedKey, refKey, "cites")] })
      st
    entry.cited_by.foldl
      (fun st c =>
        match get_paper_key_viz c with
        | none => st
        | some citKey =>
          { st with
            citIdx := addOccurrenceSet st.citIdx citKey c seedKey,
            edges := st.edges ++ [(citKey, seedKey, "cites")] })
      st1

/-- The indices and raw edge list built by `analyze_for_graph`. -/
def vizBuild (papers : List SeedEntry) : VizState :=
  papers.foldl vizStep {}

/-- Threshold filtering and seed exclusion for one visualization index
(`c >= k and key not in seed_papers`). -/
def vizFilter (seedPapers : List (String × VizNode))
    (idx : List (String × SetEntry)) (k : Nat) : List (String × VizNode) :=
  idx.filterMap
    (fun e =>
      let c := e.2.seeds.length
      if k ≤ c ∧ alookup seedPapers e.1 = none then
        let m := e.2.metadata.getD defaultPaper
        some (e.1,
          { key := e.1,
            title := m.title.getD "Unknown",
            authors := m.authors,
            year := m.year,
            venue := m.venue.getD "",
            count := some c })
      else none)

/-- The graph structure returned by `analyze_for_graph`. -/
structure GraphData where
  seed_papers : List (String × VizNode)
  cited_papers : List (String × VizNode)
  citing_papers : List (String × VizNode)
  edges : List Edge
  deriving DecidableEq, Repr

/-- The union of the three node partitions' key sets
(`all_relevant_keys`). -/
def relevantKeys (seed cited citing : List (String × VizNode)) :
    List String :=
  seed.map (fun e => e.1) ++ cited.map (fun e => e.1) ++
    citing.map (fun e => e.1)

/-- `analyze_for_graph(data, k_cited, k_citing)`: three node partitions
plus the filtered, deduplicated edge list.  Python materialises the edge
set via `list(set(...))` with unspecified order; `List.dedup` models it
up to ordering, preserving membership and uniqueness. -/
def analyze_for_graph (papers : List SeedEntry) (k_cited k_citing : Nat) :
    GraphData :=
  let seedPapers := vizSeedPapers papers
  let st := vizBuild papers
  let cited := vizFilter seedPapers st.refIdx k_cited
  let citing := vizFilter seedPapers st.citIdx k_citing
  let allKeys := relevantKeys seedPapers cited citing
  let filtered := st.edges.filter
    (fun e => e.1 ∈ allKeys ∧ e.2.1 ∈ allKeys)
  { seed_papers := seedPapers,
    cited_papers := cited,
    citing_papers := citing,
    edges := filtered.dedup }

/-! ### `get_citations.merge_paper_lists`

Python mutates the dict objects held in `seen` in place, so the merge is
modelled with explicit state passing: records live in a `store` (a list
of records addressed by position, the stand-in for the heap), the two
input lists are lists of store positions (object references; an
out-of-range position models a `None` element, which the loop skips),
and the fold threads `(store, seen)` where `seen` maps a key to the
store position of its first record. -/

/-- The in-place metadata merge performed on `existing` when a duplicate
key is met: for each of `doi`, `arxiv_id`, `title`, `authors`, `year`,
`venue`, fill the field from `paper` when it is falsy in `existing` and
truthy in `paper`; then set `source` to the combined marker when the two
source tags differ. -/
def mergeInto (existing paper : Paper) : Paper :=
  let e :=
    { existing with
      doi := if !tS existing.doi && tS paper.doi then paper.doi
             else existing.doi,
      arxiv_id := if !tS existing.arxiv_id && tS paper.arxiv_id then
               paper.arxiv_id else existing.arxiv_id,
      title := if !tS existing.title && tS paper.title then paper.title
             else existing.title,
      authors := if existing.authors.isEmpty && !paper.authors.isEmpty then
               paper.authors else existing.authors,
      year := if !tYear existing.year && tYear paper.year then paper.year
             else existing.year,
      venue := if !tS existing.venue && tS paper.venue then paper.venue
             else existing.venue }
  if e.source ≠ paper.source then
    { e with source := some "openalex+semantic_scholar" }
  else e

/-- One iteration of the `merge_paper_lists` loop over store position
`pos`. -/
def mergeStep (st : List Paper × List (String × Nat)) (pos : Nat) :
    List Paper × List (String × Nat) :=
  let (store, seen) := st
  match store.get? pos with
  | none => (store, seen)
  | some paper =>
    let k := get_paper_key_store paper pos
    match alookup seen k with
    | none => (store, seen ++ [(k, pos)])
    | some existingPos =>
      match store.get? existingPos with
      | none => (store, seen)
      | some existing =>
        (store.set existingPos (mergeInto existing paper), seen)

/-- `merge_paper_lists(list1, list2)` over a record store: returns the
final store together with the merged result list
(`list(seen.values())`, read from the store after all mutation). -/
def merge_paper_lists (store : List Paper) (list1 list2 : List Nat) :
    List Paper × List Paper :=
  let (finalStore, seen) := (list1 ++ list2).foldl mergeStep (store, [])
  (finalStore, seen.filterMap (fun e => finalStore.get? e.2))

/-! ### Spec-side counting and characterization helpers -/

/-- Modelled from the spec (§8 count correctness): the number of
*distinct* seed canonical keys whose relation list (as selected by
`rel`) contains a record with canonical key `k`. -/
def distinctContributingSeeds (rel : SeedEntry → List Paper)
    (papers : List SeedEntry) (k : String) : Nat :=
  ((papers.filterMap
    (fun entry =>
      match entry.metadata.bind get_paper_key_analyze with
      | none => none
      | some sk =>
        if (rel entry).any (fun r => get_paper_key_analyze r = some k) then
          some sk
        else none)).dedup).length

/-- The per-occurrence attribution list that `analyze_citations`
accumulates for key `k`: one `(input_doi, label)` pair per relation-list
entry resolving to `k`, over every document entry with truthy
metadata. -/
def occList (rel : SeedEntry → List Paper) (papers : List SeedEntry)
    (k : String) : List SeedRef :=
  papers.flatMap
    (fun entry =>
      match entry.metadata with
      | none => []
      | some _ =>
        ((rel entry).filter
          (fun r => get_paper_key_analyze r = some k)).map
          (fun _ => (entry.input_doi, get_seed_paper_label entry)))

/-- The occurrence count behind `c_in` / `c_out` in
`analyze_citations`. -/
def occCount (rel : SeedEntry → List Paper) (papers : List SeedEntry)
    (k : String) : Nat :=
  (occList rel papers k).length

/-- The contributing seed keys that the visualization accumulates for
key `k`, one per relation-list occurrence, before set-deduplication. -/
def contribListViz (rel : SeedEntry → List Paper)
    (papers : List SeedEntry) (k : String) : List String :=
  papers.flatMap
    (fun entry =>
      match vizSeedKey entry with
      | none => []
      | some sk =>
        ((rel entry).filter
          (fun r => get_paper_key_viz r = some k)).map (fun _ => sk))

/-- All paper records appearing in a document (seed metadata, reference
entries, citing entries). -/
def allRecords (papers : List SeedEntry) : List Paper :=
  papers.flatMap
    (fun entry => entry.metadata.toList ++ entry.references ++ entry.cited_by)

/-- First truthy value in a list, with a default. -/
def firstTruthy {β : Type} (tr : β → Bool) (dflt : β) (l : List β) : β :=
  match l.find? tr with
  | some v => v
  | none => dflt

/-! ### Error-aware model of key derivation (safety claim)

`get_paper_key` in `analyze_citations.py` mixes guarded `paper[f]`
subscripts (which raise `KeyError` on a missing key) with defaulted
`paper.get(f, ...)` accesses.  The `Except` model makes each subscript
fallible so that totality is a theorem, not a typing artifact. -/

/-- `paper[f]`: fallible dict subscript. -/
def getItem (o : Option String) : Except String String :=
  match o with
  | none => Except.error "KeyError"
  | some v => Except.ok v

/-- `get_paper_key` from `analyze_citations.py` with every dict
subscript modelled as a fallible access. -/
def get_paper_key_analyzeE (paper : Paper) : Except String (Option String) :=
  let title := paper.title.getD ""
  let titleKey : Option String :=
    if title ≠ "" then
      let normalized := normalize_title title
      if normalized ≠ "" then some ("title:" ++ normalized) else none
    else none
  match titleKey with
  | some k => Except.ok (some k)
  | none =>
    let doi := paper.doi.getD ""
    let arxiv_id := paper.arxiv_id.getD ""
    match extract_arxiv_id_from_doi doi with
    | some a => Except.ok (some ("arxiv:" ++ a))
    | none =>
      if arxiv_id ≠ "" then Except.ok (some ("arxiv:" ++ pyLowerStr arxiv_id))
      else if doi ≠ "" then Except.ok (some ("doi:" ++ pyLowerStr doi))
      else if tS paper.openalex_id then do
        let v ← getItem paper.openalex_id
        Except.ok (some ("openalex:" ++ pyLowerStr v))
      else if tS paper.s2_id then do
        let v ← getItem paper.s2_id
        Except.ok (some ("s2:" ++ pyLowerStr v))
      else Except.ok none

/-! ### Concrete documents and records used by the witnesses and
counterexamples -/

/-- A seed paper that lists the same reference twice. -/
def docDupRef : List SeedEntry :=
  [{ input_doi := "10.1/a",
     metadata := some { title := some "Paper A" },
     references := [{ title := some "Paper X" }, { title := some "Paper X" }] }]

/-- A record carrying both a title and a DOI. -/
def paperTitleDoi : Paper := { title := some "Paper A", doi := some "10.1/X" }

/-- A document whose only reference record carries both a title and a
DOI, so the two entry points key it differently. -/
def docTitleDoi : List SeedEntry :=
  [{ input_doi := "10.1/s",
     metadata := some { title := some "Seed Paper" },
     references := [{ title := some "Paper X", doi := some "10.1/x" }] }]

/-- A DOI-only document on which the two entry points agree. -/
def docDoiOnly : List SeedEntry :=
  [{ input_doi := "10.1/s1",
     metadata := some { doi := some "10.1/s1" },
     references := [{ doi := some "10.1/x" }],
     cited_by := [{ doi := some "10.1/q" }] },
   { input_doi := "10.1/s2",
     metadata := some { doi := some "10.1/s2" },
     references := [{ doi := some "10.1/x" }] }]

/-- A malformed document whose seed paper lists itself as a reference. -/
def docSelfRef : List SeedEntry :=
  [{ input_doi := "10.1/a",
     metadata := some { title := some "Paper A" },
     references := [{ title := some "Paper A" }, { title := some "Paper X" }] }]

/-- A seed entry whose metadata dict is truthy (non-empty) but resolves
to no canonical key. -/
def keylessSeed : SeedEntry :=
  { input_doi := "10.1/k",
    metadata := some { title := some "", venue := some "Nowhere" },
    references := [{ title := some "Paper X" }],
    cited_by := [{ title := some "Paper Q" }] }

/-- An OpenAlex-style record: has `openalex_id`, no `s2_id`. -/
def paperOA : Paper :=
  { doi := some "10.1/m", title := some "Paper M",
    openalex_id := some "W1", source := some "openalex" }

/-- A Semantic-Scholar-style record for the same paper: has `s2_id`, no
`openalex_id`. -/
def paperS2 : Paper :=
  { doi := some "10.1/m", title := some "Paper M", s2_id := some "S1",
    source := some "semantic_scholar" }

/-- Duplicate pair for the merge scenario: same DOI, first missing
`venue`, second missing `year`. -/
def paperNoVenue : Paper :=
  { doi := some "10.1/m", title := some "Paper M", year := some 2020,
    source := some "openalex" }

/-- Second record of the merge scenario. -/
def paperNoYear : Paper :=
  { doi := some "10.1/m", title := some "Paper M", venue := some "NeurIPS",
    source := some "semantic_scholar" }

/-- The truncation counterexample title: 149 `a`s, a space, and `b`;
its normalization is cut at 150 characters, exposing a trailing
space. -/
def truncTitle : String := ⟨List.replicate 149 'a' ++ [' ', 'b']⟩

/-- The attribution list stored for key `k` in an analysis index
(empty when the key is absent). -/
def seedsAt (idx : List (String × OccEntry)) (k : String) : List SeedRef :=
  ((alookup idx k).map OccEntry.seeds).getD []

/-- The contributing-seed set stored for key `k` in a visualization
index (empty when the key is absent). -/
def vizSeedsAt (idx : List (String × SetEntry)) (k : String) : List String :=
  ((alookup idx k).map SetEntry.seeds).getD []


/-! ## Theorems -/

theorem alookup_nil {β : Type} (k : String) :
    alookup ([] : List (String × β)) k = none := rfl

theorem alookup_cons {β : Type} (e : String × β) (l : List (String × β))
    (k : String) :
    alookup (e :: l) k = if e.1 = k then some e.2 else alookup l k := by
  simp only [alookup, List.find?]
  by_cases h : e.1 = k <;> simp [h]

theorem alookup_aupsert {β : Type} (l : List (String × β)) (k k2 : String)
    (f : β → β) (init : β) :
    alookup (aupsert l k2 f init) k =
      if k = k2 then some (f ((alookup l k2).getD init)) else alookup l k := by
  induction l with
  | nil =>
    show alookup [(k2, f init)] k = _
    rw [alookup_cons]
    by_cases h : k = k2
    · simp [h, alookup_nil]
    · simp [alookup_nil, h, Ne.symm h]
  | cons e rest ih =>
    show alookup (if e.1 = k2 then (k2, f e.2) :: rest
      else e :: aupsert rest k2 f init) k = _
    by_cases he : e.1 = k2
    · rw [if_pos he, alookup_cons]
      by_cases hk : k = k2
      · rw [if_pos (he ▸ hk.symm : k2 = k), if_pos hk, alookup_cons, if_pos he]
        simp
      · rw [if_neg (Ne.symm hk), if_neg hk, alookup_cons,
          if_neg (he ▸ (Ne.symm hk) : ¬e.1 = k)]
    · rw [if_neg he, alookup_cons, ih, alookup_cons, if_neg he]
      by_cases hk : k = k2
      · rw [if_pos hk, if_pos hk, if_neg (hk ▸ he : ¬e.1 = k)]
      · rw [if_neg hk, if_neg hk, alookup_cons]

theorem alookup_aset {β : Type} (l : List (String × β)) (k k2 : String)
    (v : β) :
    alookup (aset l k2 v) k = if k = k2 then some v else alookup l k := by
  induction l with
  | nil =>
    show alookup [(k2, v)] k = _
    rw [alookup_cons]
    by_cases h : k = k2
    · simp [h]
    · simp [alookup_nil, h, Ne.symm h]
  | cons e rest ih =>
    show alookup (if e.1 = k2 then (k2, v) :: rest else e :: aset rest k2 v) k = _
    by_cases he : e.1 = k2
    · rw [if_pos he, alookup_cons]
      by_cases hk : k = k2
      · rw [if_pos (he ▸ hk.symm : k2 = k), if_pos hk]
      · rw [if_neg (Ne.symm hk), if_neg hk, alookup_cons,
          if_neg (he ▸ (Ne.symm hk) : ¬e.1 = k)]
    · rw [if_neg he, alookup_cons, ih, alookup_cons]
      by_cases hk : k = k2
      · rw [if_pos hk, if_pos hk, if_neg (hk ▸ he : ¬e.1 = k)]
      · rw [if_neg hk, if_neg hk]

theorem mem_insertFresh (l : List String) (k a : String) :
    a ∈ insertFresh l k ↔ a ∈ l ∨ a = k := by
  unfold insertFresh
  by_cases h : k ∈ l
  · rw [if_pos h]
    constructor
    · exact Or.inl
    · rintro (ha | rfl)
      · exact ha
      · exact h
  · rw [if_neg h]
    simp [List.mem_append]

theorem nodup_insertFresh (l : List String) (k : String) (h : l.Nodup) :
    (insertFresh l k).Nodup := by
  unfold insertFresh
  by_cases hk : k ∈ l
  · rw [if_pos hk]; exact h
  · rw [if_neg hk]
    simp only [List.nodup_append, h, List.nodup_cons, List.not_mem_nil,
      not_false_iff, List.nodup_nil, and_true, true_and]
    exact fun a ha hak => hk ((List.mem_singleton.mp hak) ▸ ha)

theorem seedsAt_addOccurrence (idx : List (String × OccEntry))
    (k k2 : String) (r : Paper) (sr : SeedRef) :
    seedsAt (addOccurrence idx k2 r sr) k =
      if k = k2 then seedsAt idx k ++ [sr] else seedsAt idx k := by
  unfold seedsAt addOccurrence
  rw [alookup_aupsert]
  by_cases h : k = k2
  · subst h
    cases alookup idx k <;> simp
  · rw [if_neg h, if_neg h]


/-- Inner relation-list loop of the analysis index builder. -/
theorem seedsAt_innerLoop (rs : List Paper) (sr : SeedRef)
    (idx : List (String × OccEntry)) (k : String) :
    seedsAt (rs.foldl
      (fun idx r =>
        match get_paper_key_analyze r with
        | none => idx
        | some k2 => addOccurrence idx k2 r sr) idx) k =
      seedsAt idx k ++
        ((rs.filter (fun r => get_paper_key_analyze r = some k)).map
          (fun _ => sr)) := by
  induction rs generalizing idx with
  | nil => simp
  | cons r rest ih =>
    simp only [List.foldl_cons]
    cases hr : get_paper_key_analyze r with
    | none =>
      rw [ih]
      simp [List.filter_cons, hr]
    | some k2 =>
      rw [ih, seedsAt_addOccurrence]
      by_cases hk : k = k2
      · subst hk
        simp [List.filter_cons, hr]
      · simp [List.filter_cons, hr, hk, Ne.symm hk]

theorem seedsAt_build (rel : SeedEntry → List Paper)
    (papers : List SeedEntry) (k : String) :
    seedsAt (buildIndexAnalyze rel papers) k = occList rel papers k := by
  unfold buildIndexAnalyze
  suffices h : ∀ idx0, seedsAt (papers.foldl
      (fun idx entry =>
        match entry.metadata with
        | none => idx
        | some _ =>
          (rel entry).foldl
            (fun idx r =>
              match get_paper_key_analyze r with
              | none => idx
              | some k2 =>
                addOccurrence idx k2 r (entry.input_doi, get_seed_paper_label entry))
            idx) idx0) k = seedsAt idx0 k ++ occList rel papers k by
    have := h []
    simpa [seedsAt, alookup_nil] using this
  induction papers with
  | nil => intro idx0; simp [occList]
  | cons entry rest ih =>
    intro idx0
    simp only [List.foldl_cons]
    cases hm : entry.metadata with
    | none =>
      rw [ih]
      simp [occList, hm]
    | some m =>
      rw [ih, seedsAt_innerLoop]
      simp [occList, hm, List.flatMap]

/-- Membership in the analysis seed-key set. -/
theorem mem_seedKeysAnalyze (papers : List SeedEntry) (k : String) :
    k ∈ seedKeysAnalyze papers ↔
      ∃ entry ∈ papers, ∃ m, entry.metadata = some m ∧
        get_paper_key_analyze m = some k := by
  unfold seedKeysAnalyze
  suffices h : ∀ acc, k ∈ papers.foldl
      (fun acc entry =>
        match entry.metadata with
        | none => acc
        | some m =>
          match get_paper_key_analyze m with
          | none => acc
          | some k2 => insertFresh acc k2) acc ↔
      k ∈ acc ∨ ∃ entry ∈ papers, ∃ m, entry.metadata = some m ∧
        get_paper_key_analyze m = some k by
    simpa using h []
  induction papers with
  | nil => intro acc; simp
  | cons entry rest ih =>
    intro acc
    simp only [List.foldl_cons]
    cases hm : entry.metadata with
    | none =>
      simp only [hm]
      rw [ih]
      simp only [List.mem_cons]
      constructor
      · rintro (ha | ⟨e, he, m, hm2, hk⟩)
        · exact Or.inl ha
        · exact Or.inr ⟨e, Or.inr he, m, hm2, hk⟩
      · rintro (ha | ⟨e, (rfl | he), m, hm2, hk⟩)
        · exact Or.inl ha
        · rw [hm] at hm2; cases hm2
        · exact Or.inr ⟨e, he, m, hm2, hk⟩
    | some m =>
      simp only [hm]
      cases hk2 : get_paper_key_analyze m with
      | none =>
        simp only [hk2]
        rw [ih]
        simp only [List.mem_cons]
        constructor
        · rintro (ha | ⟨e, he, m2, hm2, hk⟩)
          · exact Or.inl ha
          · exact Or.inr ⟨e, Or.inr he, m2, hm2, hk⟩
        · rintro (ha | ⟨e, (rfl | he), m2, hm2, hk⟩)
          · exact Or.inl ha
          · rw [hm] at hm2
            cases hm2
            rw [hk2] at hk; cases hk
          · exact Or.inr ⟨e, he, m2, hm2, hk⟩
      | some k2 =>
        simp only [hk2]
        rw [ih]
        simp only [List.mem_cons, mem_insertFresh]
        constructor
        · rintro (⟨ha | hak⟩ | ⟨e, he, m2, hm2, hk⟩)
          · exact Or.inl ha
          · exact Or.inr ⟨entry, Or.inl rfl, m, hm, hak ▸ hk2⟩
          · exact Or.inr ⟨e, Or.inr he, m2, hm2, hk⟩
        · rintro (ha | ⟨e, (rfl | he), m2, hm2, hk⟩)
          · exact Or.inl (Or.inl ha)
          · rw [hm] at hm2
            cases hm2
            rw [hk2] at hk
            exact Or.inl (Or.inr (Option.some_injective _ hk).symm)
          · exact Or.inr ⟨e, he, m2, hm2, hk⟩



/-- C1 (code evaluated at the failing input): on a document whose single
seed paper lists the same reference twice, `analyze_citations` reports
`c_in = 2` for that reference at `k_cited = 2`, although only one
distinct seed canonical key contributed — the occurrence count, not the
distinct-seed count mandated by the specification. -/
theorem c1_naive_count_at_failing_input :
    (analyze_citations docDupRef 2 2).1.map (fun e => (e.key, e.count)) =
      [("title:paper x", 2)] ∧
    distinctContributingSeeds (fun p => p.references) docDupRef
      "title:paper x" = 1 := by
  exact ⟨rfl, rfl⟩

/-- C2 counterexample: on a record carrying both a title and a DOI, the
visualization entry point's `get_paper_key` does not follow the claimed
priority order (it returns the DOI key where the claimed order returns
the normalized-title key). -/
theorem c2_viz_order_counterexample :
    get_paper_key_viz paperTitleDoi ≠ specKeyPriority paperTitleDoi := by
  decide

/-- C8: canonical-key derivation in the analysis entry point is total
over all records: with every dict subscript modelled as a fallible
access, `get_paper_key` never raises and returns exactly the key (or
absence) computed by the pure model, for every combination of missing
and empty fields. -/
theorem c8_key_derivation_total :
    ∀ p, get_paper_key_analyzeE p = Except.ok (get_paper_key_analyze p) := by
  intro p
  unfold get_paper_key_analyzeE get_paper_key_analyze
  by_cases ht : p.title.getD "" = "" <;>
  by_cases hn : normalize_title (p.title.getD "") = "" <;>
  cases hx : extract_arxiv_id_from_doi (p.doi.getD "") <;>
  by_cases ha : p.arxiv_id.getD "" = "" <;>
  by_cases hd : p.doi.getD "" = "" <;>
  cases ho : p.openalex_id <;>
  cases hs : p.s2_id <;>
  simp_all [tS, getItem, Except.bind] <;>
  split_ifs <;> rfl



set_option maxHeartbeats 1000000 in
/-- C2 (amended): the analysis entry point's `get_paper_key` follows the
claimed priority order exactly (first satisfied namespace wins, no
fallthrough); the visualization entry point's `get_paper_key` instead
follows the order DOI, arXiv id, OpenAlex id, Semantic Scholar id,
lowercased 100-character title, with no arXiv-from-DOI recovery. -/
theorem c2_key_priority_amended :
    (∀ p, get_paper_key_analyze p = specKeyPriority p) ∧
    (∀ p, get_paper_key_viz p = specKeyVizPriority p) := by
  constructor
  · intro p
    unfold get_paper_key_analyze specKeyPriority
    simp only [List.find?, tS]
    by_cases ht : p.title.getD "" = "" <;>
    by_cases hn : normalize_title (p.title.getD "") = "" <;>
    cases hx : extract_arxiv_id_from_doi (p.doi.getD "") <;>
    by_cases ha : p.arxiv_id.getD "" = "" <;>
    by_cases hd : p.doi.getD "" = "" <;>
    by_cases ho : p.openalex_id.getD "" = "" <;>
    by_cases hs : p.s2_id.getD "" = "" <;>
    simp_all [normalize_title]
  · intro p
    unfold get_paper_key_viz specKeyVizPriority
    simp only [List.find?, tS]
    by_cases hd : p.doi.getD "" = "" <;>
    by_cases ha : p.arxiv_id.getD "" = "" <;>
    by_cases ho : p.openalex_id.getD "" = "" <;>
    by_cases hs : p.s2_id.getD "" = "" <;>
    by_cases ht : p.title.getD "" = "" <;>
    simp_all

theorem stableInsert_perm {α : Type} (le : α → α → Bool) (x : α)
    (l : List α) : List.Perm (stableInsert le x l) (x :: l) := by
  induction l with
  | nil => exact List.Perm.refl _
  | cons y ys ih =>
    unfold stableInsert
    by_cases h : le y x = true
    · rw [if_pos h]
      exact ((ih.cons y).trans (List.Perm.swap x y ys))
    · rw [if_neg h]

theorem pySort_perm {α : Type} (le : α → α → Bool) (l : List α) :
    List.Perm (pySort le l) l := by
  unfold pySort
  suffices h : ∀ acc, List.Perm
      (l.foldl (fun acc x => stableInsert le x acc) acc) (acc ++ l) by
    simpa using h []
  induction l with
  | nil => intro acc; simp
  | cons x xs ih =>
    intro acc
    simp only [List.foldl_cons]
    refine (ih _).trans ?_
    refine (List.Perm.append_right xs (stableInsert_perm le x acc)).trans ?_
    exact List.perm_middle.symm

/-- Membership characterization of the aggregated result lists. -/
theorem mem_aggregate (seedKeys : List String)
    (idx : List (String × OccEntry)) (k : Nat) (e : AggEntry) :
    e ∈ aggregate seedKeys idx k ↔
      ∃ pr ∈ idx, pr.1 ∉ seedKeys ∧ k ≤ pr.2.seeds.length ∧
        e = mkAggEntry seedKeys pr.1 pr.2 := by
  unfold aggregate
  rw [(pySort_perm _ _).mem_iff, List.mem_filterMap]
  constructor
  · rintro ⟨pr, hpr, hf⟩
    by_cases h1 : pr.1 ∈ seedKeys
    · rw [if_pos h1] at hf; cases hf
    · rw [if_neg h1] at hf
      by_cases h2 : k ≤ pr.2.seeds.length
      · rw [if_pos h2] at hf
        exact ⟨pr, hpr, h1, h2, (Option.some_injective _ hf).symm⟩
      · rw [if_neg h2] at hf; cases hf
  · rintro ⟨pr, hpr, h1, h2, rfl⟩
    exact ⟨pr, hpr, by rw [if_neg h1, if_pos h2]⟩

/-- C4: for every document and all thresholds, no entry of the
cited-result list and no entry of the citing-result list carries a key
belonging to the seed key set. -/
theorem c4_seed_exclusion :
    ∀ papers kc kk e,
      (e ∈ (analyze_citations papers kc kk).1 →
        e.key ∉ seedKeysAnalyze papers) ∧
      (e ∈ (analyze_citations papers kc kk).2 →
        e.key ∉ seedKeysAnalyze papers) := by
  intro papers kc kk e
  constructor <;> intro hmem
  · obtain ⟨pr, _, h1, _, rfl⟩ :=
      (mem_aggregate (seedKeysAnalyze papers) _ kc e).mp hmem
    exact h1
  · obtain ⟨pr, _, h1, _, rfl⟩ :=
      (mem_aggregate (seedKeysAnalyze papers) _ kk e).mp hmem
    exact h1

/-- C4 witness: a malformed document whose seed paper lists itself still
yields a cited-result entry (for the other reference) whose key is
outside the seed key set; the seed's self-reference is excluded. -/
theorem c4_seed_exclusion_witness :
    (⟨"title:paper x", "", "", "Paper X", [], none, "", 1,
      [("10.1/a", "Paper A")], false⟩ : AggEntry) ∈
        (analyze_citations docSelfRef 1 1).1 ∧
    (⟨"title:paper x", "", "", "Paper X", [], none, "", 1,
      [("10.1/a", "Paper A")], false⟩ : AggEntry).key ∉
        seedKeysAnalyze docSelfRef :=
  ⟨by decide, (c4_seed_exclusion docSelfRef 1 1 _).1 (by decide)⟩


theorem mergeStep_skip (store : List Paper) (seen : List (String × Nat))
    (pos : Nat) (h : store.get? pos = none) :
    mergeStep (store, seen) pos = (store, seen) := by
  unfold mergeStep
  show (match store.get? pos with
    | none => (store, seen)
    | some paper =>
      match alookup seen (get_paper_key_store paper pos) with
      | none => (store, seen ++ [(get_paper_key_store paper pos, pos)])
      | some existingPos =>
        match store.get? existingPos with
        | none => (store, seen)
        | some existing =>
          (store.set existingPos (mergeInto existing paper), seen)) = _
  rw [h]

theorem mergeStep_new (store : List Paper) (seen : List (String × Nat))
    (pos : Nat) (paper : Paper) (h : store.get? pos = some paper)
    (h2 : alookup seen (get_paper_key_store paper pos) = none) :
    mergeStep (store, seen) pos =
      (store, seen ++ [(get_paper_key_store paper pos, pos)]) := by
  unfold mergeStep
  show (match store.get? pos with
    | none => (store, seen)
    | some paper =>
      match alookup seen (get_paper_key_store paper pos) with
      | none => (store, seen ++ [(get_paper_key_store paper pos, pos)])
      | some existingPos =>
        match store.get? existingPos with
        | none => (store, seen)
        | some existing =>
          (store.set existingPos (mergeInto existing paper), seen)) = _
  rw [h]
  show (match alookup seen (get_paper_key_store paper pos) with
    | none => (store, seen ++ [(get_paper_key_store paper pos, pos)])
    | some existingPos =>
      match store.get? existingPos with
      | none => (store, seen)
      | some existing =>
        (store.set existingPos (mergeInto existing paper), seen)) = _
  rw [h2]

theorem mergeStep_dup_gone (store : List Paper) (seen : List (String × Nat))
    (pos : Nat) (paper : Paper) (j2 : Nat) (h : store.get? pos = some paper)
    (h2 : alookup seen (get_paper_key_store paper pos) = some j2)
    (h3 : store.get? j2 = none) :
    mergeStep (store, seen) pos = (store, seen) := by
  unfold mergeStep
  show (match store.get? pos with
    | none => (store, seen)
    | some paper =>
      match alookup seen (get_paper_key_store paper pos) with
      | none => (store, seen ++ [(get_paper_key_store paper pos, pos)])
      | some existingPos =>
        match store.get? existingPos with
        | none => (store, seen)
        | some existing =>
          (store.set existingPos (mergeInto existing paper), seen)) = _
  rw [h]
  show (match alookup seen (get_paper_key_store paper pos) with
    | none => (store, seen ++ [(get_paper_key_store paper pos, pos)])
    | some existingPos =>
      match store.get? existingPos with
      | none => (store, seen)
      | some existing =>
        (store.set existingPos (mergeInto existing paper), seen)) = _
  rw [h2]
  show (match store.get? j2 with
    | none => (store, seen)
    | some existing => (store.set j2 (mergeInto existing paper), seen)) = _
  rw [h3]

theorem mergeStep_dup (store : List Paper) (seen : List (String × Nat))
    (pos : Nat) (paper existing : Paper) (j2 : Nat)
    (h : store.get? pos = some paper)
    (h2 : alookup seen (get_paper_key_store paper pos) = some j2)
    (h3 : store.get? j2 = some existing) :
    mergeStep (store, seen) pos =
      (store.set j2 (mergeInto existing paper), seen) := by
  unfold mergeStep
  show (match store.get? pos with
    | none => (store, seen)
    | some paper =>
      match alookup seen (get_paper_key_store paper pos) with
      | none => (store, seen ++ [(get_paper_key_store paper pos, pos)])
      | some existingPos =>
        match store.get? existingPos with
        | none => (store, seen)
        | some existing =>
          (store.set existingPos (mergeInto existing paper), seen)) = _
  rw [h]
  show (match alookup seen (get_paper_key_store paper pos) with
    | none => (store, seen ++ [(get_paper_key_store paper pos, pos)])
    | some existingPos =>
      match store.get? existingPos with
      | none => (store, seen)
      | some existing2 =>
        (store.set existingPos (mergeInto existing2 paper), seen)) = _
  rw [h2]
  show (match store.get? j2 with
    | none => (store, seen)
    | some existing2 => (store.set j2 (mergeInto existing2 paper), seen)) = _
  rw [h3]

theorem alookup_some_snd_mem {β : Type} (l : List (String × β)) (k : String)
    (v : β) (h : alookup l k = some v) : v ∈ l.map Prod.snd := by
  unfold alookup at h
  cases hf : l.find? (fun e => e.1 = k) with
  | none => rw [hf] at h; cases h
  | some e =>
    rw [hf] at h
    have he : e ∈ l := List.mem_of_find?_eq_some hf
    cases h
    exact List.mem_map_of_mem Prod.snd he

theorem seenValues_mono (ids : List Nat) (st : List Paper)
    (seen : List (String × Nat)) (j : Nat) (hj : j ∈ seen.map Prod.snd) :
    j ∈ ((ids.foldl mergeStep (st, seen)).2).map Prod.snd := by
  induction ids generalizing st seen with
  | nil => exact hj
  | cons i rest ih =>
    rw [List.foldl_cons]
    cases h1 : st.get? i with
    | none => rw [mergeStep_skip st seen i h1]; exact ih st seen hj
    | some paper =>
      cases h2 : alookup seen (get_paper_key_store paper i) with
      | none =>
        rw [mergeStep_new st seen i paper h1 h2]
        refine ih st _ ?_
        simp only [List.map_append, List.mem_append]
        exact Or.inl hj
      | some j2 =>
        cases h3 : st.get? j2 with
        | none =>
          rw [mergeStep_dup_gone st seen i paper j2 h1 h2 h3]
          exact ih st seen hj
        | some existing =>
          rw [mergeStep_dup st seen i paper existing j2 h1 h2 h3]
          exact ih _ seen hj

theorem foldl_mergeStep_frame (ids : List Nat) (st : List Paper)
    (seen : List (String × Nat)) (j : Nat)
    (hj : j ∉ ((ids.foldl mergeStep (st, seen)).2).map Prod.snd) :
    ((ids.foldl mergeStep (st, seen)).1).get? j = st.get? j := by
  induction ids generalizing st seen with
  | nil => rfl
  | cons i rest ih =>
    rw [List.foldl_cons] at hj ⊢
    cases h1 : st.get? i with
    | none =>
      rw [mergeStep_skip st seen i h1] at hj ⊢
      exact ih st seen hj
    | some paper =>
      cases h2 : alookup seen (get_paper_key_store paper i) with
      | none =>
        rw [mergeStep_new st seen i paper h1 h2] at hj ⊢
        exact ih st _ hj
      | some j2 =>
        cases h3 : st.get? j2 with
        | none =>
          rw [mergeStep_dup_gone st seen i paper j2 h1 h2 h3] at hj ⊢
          exact ih st seen hj
        | some existing =>
          rw [mergeStep_dup st seen i paper existing j2 h1 h2 h3] at hj ⊢
          rw [ih _ seen hj]
          have hne : j2 ≠ j := by
            intro heq
            apply hj
            subst heq
            exact seenValues_mono rest _ seen j2
              (alookup_some_snd_mem seen _ j2 h2)
          simp only [List.get?_eq_getElem?]
          exact List.getElem?_set_ne hne

/-- C7 counterexample: `merge_paper_lists` mutates its input — after
merging two duplicate records, the first input record has been changed
in place (its empty `venue` was filled in and its `source` tag was
rewritten to the combined marker). -/
theorem c7_input_mutation_counterexample :
    (merge_paper_lists [paperNoVenue, paperNoYear] [0, 1] []).1.get? 0 ≠
      some paperNoVenue := by
  decide

/-- C7 (amended): after `merge_paper_lists` returns, every input record
that is *not* registered as the first-seen record of its key (the values
of the `seen` map) is unchanged; only the first record of a duplicate
group may have been updated in place. -/
theorem c7_no_mutation_outside_first_of_group (store : List Paper)
    (list1 list2 : List Nat) (j : Nat)
    (hj : j ∉ ((((list1 ++ list2).foldl mergeStep (store, [])).2).map
      Prod.snd)) :
    (merge_paper_lists store list1 list2).1.get? j = store.get? j := by
  unfold merge_paper_lists
  exact foldl_mergeStep_frame (list1 ++ list2) store [] j hj

/-- C7 witness: in the duplicate-pair merge, the second input record
(position 1, not the first of its group) is returned unchanged. -/
theorem c7_no_mutation_witness :
    (merge_paper_lists [paperNoVenue, paperNoYear] [0, 1] []).1.get? 1 =
      [paperNoVenue, paperNoYear].get? 1 :=
  c7_no_mutation_outside_first_of_group [paperNoVenue, paperNoYear]
    [0, 1] [] 1 (by decide)


theorem foldl_mergeInto_keep {β : Type} (proj : Paper → β) (tr : β → Bool)
    (h : ∀ e p, proj (mergeInto e p) =
      if !tr (proj e) && tr (proj p) then proj p else proj e)
    (gs : List Paper) (a : Paper) (ha : tr (proj a) = true) :
    proj (gs.foldl mergeInto a) = proj a := by
  induction gs generalizing a with
  | nil => rfl
  | cons g gs ih =>
    simp only [List.foldl_cons]
    have hstep : proj (mergeInto a g) = proj a := by
      rw [h, ha]
      simp
    rw [ih _ (by rw [hstep, ha])]
    exact hstep

theorem foldl_mergeInto_firstWins {β : Type} (proj : Paper → β)
    (tr : β → Bool)
    (h : ∀ e p, proj (mergeInto e p) =
      if !tr (proj e) && tr (proj p) then proj p else proj e)
    (gs : List Paper) (g0 : Paper) :
    proj (gs.foldl mergeInto g0) =
      firstTruthy tr (proj g0) ((g0 :: gs).map proj) := by
  induction gs generalizing g0 with
  | nil =>
    unfold firstTruthy
    simp only [List.map_cons, List.map_nil, List.find?]
    cases htr : tr (proj g0) <;> simp
  | cons g1 gs ih =>
    simp only [List.foldl_cons]
    cases htr0 : tr (proj g0) with
    | true =>
      have hstep : proj (mergeInto g0 g1) = proj g0 := by
        rw [h, htr0]; simp
      rw [foldl_mergeInto_keep proj tr h gs _ (by rw [hstep, htr0])]
      rw [hstep]
      unfold firstTruthy
      simp [List.find?, htr0]
    | false =>
      cases htr1 : tr (proj g1) with
      | true =>
        have hstep : proj (mergeInto g0 g1) = proj g1 := by
          rw [h, htr0, htr1]; simp
        rw [foldl_mergeInto_keep proj tr h gs _ (by rw [hstep, htr1])]
        rw [hstep]
        unfold firstTruthy
        simp [List.find?, htr0, htr1]
      | false =>
        have hstep : proj (mergeInto g0 g1) = proj g0 := by
          rw [h, htr0, htr1]; simp
        rw [ih (mergeInto g0 g1), hstep]
        unfold firstTruthy
        simp [List.find?, htr0, htr1, hstep]

theorem foldl_mergeInto_const {β : Type} (proj : Paper → β)
    (h : ∀ e p, proj (mergeInto e p) = proj e)
    (gs : List Paper) (g0 : Paper) :
    proj (gs.foldl mergeInto g0) = proj g0 := by
  induction gs generalizing g0 with
  | nil => rfl
  | cons g gs ih =>
    simp only [List.foldl_cons]
    rw [ih, h]

theorem mergeRun_inner (gs : List Paper) (k : String)
    (hk : ∀ p ∈ gs, get_paper_key_cit p = some k) :
    ∀ (cnt s : Nat) (e : Paper), 1 ≤ s → s + cnt ≤ gs.length + 1 →
      (List.range' s cnt).foldl mergeStep (e :: gs, [(k, 0)]) =
        ((((gs.drop (s - 1)).take cnt).foldl mergeInto e) :: gs, [(k, 0)]) := by
  intro cnt
  induction cnt with
  | zero => intro s e _ _; simp
  | succ cnt ih =>
    intro s e hs hlen
    obtain ⟨s2, rfl⟩ : ∃ s2, s = s2 + 1 := ⟨s - 1, by omega⟩
    have hidx : s2 < gs.length := by omega
    rw [show List.range' (s2 + 1) (cnt + 1) =
      (s2 + 1) :: List.range' (s2 + 2) cnt from List.range'_succ (s2 + 1) cnt 1]
    rw [List.foldl_cons]
    have hget : (e :: gs).get? (s2 + 1) = some gs[s2] := by
      simp [List.get?_eq_getElem?, hidx]
    have hmem : gs[s2] ∈ gs := List.getElem_mem hidx
    have hkey : get_paper_key_store gs[s2] (s2 + 1) = k := by
      unfold get_paper_key_store
      rw [hk _ hmem]
      rfl
    have hlk : alookup [(k, 0)] (get_paper_key_store gs[s2] (s2 + 1)) =
        some 0 := by
      rw [hkey, alookup_cons]
      simp
    rw [mergeStep_dup (e :: gs) [(k, 0)] (s2 + 1) gs[s2] e 0 hget hlk rfl]
    rw [show (e :: gs).set 0 (mergeInto e gs[s2]) =
      mergeInto e gs[s2] :: gs from rfl]
    rw [ih (s2 + 2) (mergeInto e gs[s2]) (by omega) (by omega)]
    have hdrop : (gs.drop ((s2 + 1) - 1)).take (cnt + 1) =
        gs[s2] :: (gs.drop ((s2 + 2) - 1)).take cnt := by
      rw [show (s2 + 1) - 1 = s2 from rfl, show (s2 + 2) - 1 = s2 + 1 from rfl]
      rw [List.drop_eq_getElem_cons hidx, List.take_succ_cons]
    rw [hdrop, List.foldl_cons]

theorem merge_paper_lists_group (g0 : Paper) (gs : List Paper) (k : String)
    (hk : ∀ p ∈ g0 :: gs, get_paper_key_cit p = some k) :
    (merge_paper_lists (g0 :: gs) (List.range (gs.length + 1)) []).2 =
      [gs.foldl mergeInto g0] := by
  unfold merge_paper_lists
  have h0 : List.range (gs.length + 1) ++ [] =
      0 :: List.range' 1 gs.length := by
    rw [List.append_nil, List.range_eq_range' (gs.length + 1)]
    exact List.range'_succ 0 gs.length 1
  rw [h0, List.foldl_cons]
  have hkey : get_paper_key_store g0 0 = k := by
    unfold get_paper_key_store
    rw [hk g0 (List.mem_cons_self g0 gs)]
    rfl
  rw [mergeStep_new (g0 :: gs) [] 0 g0 rfl rfl, hkey, List.nil_append]
  rw [mergeRun_inner gs k (fun p hp => hk p (List.mem_cons_of_mem g0 hp))
    gs.length 1 g0 le_rfl (by omega)]
  simp

/-- C6 counterexample: merging an OpenAlex record with a Semantic
Scholar record for the same key loses the second record's `s2_id` — the
first non-empty value encountered for that field is not kept, because
the code only merges the six fields doi/arxiv_id/title/authors/year/
venue. -/
theorem c6_field_loss_counterexample :
    (merge_paper_lists [paperOA, paperS2] [0, 1] []).2.map
      (fun r => r.s2_id) = [none] ∧
    firstTruthy tS paperOA.s2_id [paperOA.s2_id, paperS2.s2_id] =
      some "S1" := ⟨rfl, rfl⟩

/-- C6 (amended): merging an ordered group of records sharing one key
produces a single record that keeps, for each of the six merged fields
(doi, arxiv_id, title, authors, year, venue), the first non-empty value
of the group (never overwriting a populated field), while the remaining
identifier fields (openalex_id, s2_id) are taken from the group's first
record only.  In particular the venue/year scenario yields both fields
populated. -/
theorem c6_first_non_empty_wins (g0 : Paper) (gs : List Paper) (k : String)
    (hk : ∀ p ∈ g0 :: gs, get_paper_key_cit p = some k) :
    ∃ r, (merge_paper_lists (g0 :: gs) (List.range (gs.length + 1)) []).2 =
        [r] ∧
      r.doi = firstTruthy tS g0.doi ((g0 :: gs).map (fun p => p.doi)) ∧
      r.arxiv_id = firstTruthy tS g0.arxiv_id
        ((g0 :: gs).map (fun p => p.arxiv_id)) ∧
      r.title = firstTruthy tS g0.title
        ((g0 :: gs).map (fun p => p.title)) ∧
      r.authors = firstTruthy (fun l => !l.isEmpty) g0.authors
        ((g0 :: gs).map (fun p => p.authors)) ∧
      r.year = firstTruthy tYear g0.year
        ((g0 :: gs).map (fun p => p.year)) ∧
      r.venue = firstTruthy tS g0.venue
        ((g0 :: gs).map (fun p => p.venue)) ∧
      r.openalex_id = g0.openalex_id ∧
      r.s2_id = g0.s2_id := by
  refine ⟨gs.foldl mergeInto g0, merge_paper_lists_group g0 gs k hk,
    ?_, ?_, ?_, ?_, ?_, ?_, ?_, ?_⟩
  · exact foldl_mergeInto_firstWins (fun p => p.doi) tS
      (by intro e p; simp only [mergeInto]; split <;> rfl) gs g0
  · exact foldl_mergeInto_firstWins (fun p => p.arxiv_id) tS
      (by intro e p; simp only [mergeInto]; split <;> rfl) gs g0
  · exact foldl_mergeInto_firstWins (fun p => p.title) tS
      (by intro e p; simp only [mergeInto]; split <;> rfl) gs g0
  · exact foldl_mergeInto_firstWins (fun p => p.authors)
      (fun l => !l.isEmpty)
      (by intro e p
          simp only [mergeInto]
          split <;> simp [Bool.not_eq_true]) gs g0
  · exact foldl_mergeInto_firstWins (fun p => p.year) tYear
      (by intro e p; simp only [mergeInto]; split <;> rfl) gs g0
  · exact foldl_mergeInto_firstWins (fun p => p.venue) tS
      (by intro e p; simp only [mergeInto]; split <;> rfl) gs g0
  · exact foldl_mergeInto_const (fun p => p.openalex_id)
      (by intro e p; simp only [mergeInto]; split <;> rfl) gs g0
  · exact foldl_mergeInto_const (fun p => p.s2_id)
      (by intro e p; simp only [mergeInto]; split <;> rfl) gs g0

/-- C6 witness: the specification's scenario 3 — two records for the
same DOI key, the first missing `venue`, the second missing `year` —
merged via the theorem, so the merged record carries the first record's
year and the second record's venue. -/
theorem c6_first_non_empty_wins_witness :
    ∃ r, (merge_paper_lists (paperNoVenue :: [paperNoYear])
        (List.range ([paperNoYear].length + 1)) []).2 = [r] ∧
      r.doi = firstTruthy tS paperNoVenue.doi
        ((paperNoVenue :: [paperNoYear]).map (fun p => p.doi)) ∧
      r.arxiv_id = firstTruthy tS paperNoVenue.arxiv_id
        ((paperNoVenue :: [paperNoYear]).map (fun p => p.arxiv_id)) ∧
      r.title = firstTruthy tS paperNoVenue.title
        ((paperNoVenue :: [paperNoYear]).map (fun p => p.title)) ∧
      r.authors = firstTruthy (fun l => !l.isEmpty) paperNoVenue.authors
        ((paperNoVenue :: [paperNoYear]).map (fun p => p.authors)) ∧
      r.year = firstTruthy tYear paperNoVenue.year
        ((paperNoVenue :: [paperNoYear]).map (fun p => p.year)) ∧
      r.venue = firstTruthy tS paperNoVenue.venue
        ((paperNoVenue :: [paperNoYear]).map (fun p => p.venue)) ∧
      r.openalex_id = paperNoVenue.openalex_id ∧
      r.s2_id = paperNoVenue.s2_id :=
  c6_first_non_empty_wins paperNoVenue [paperNoYear] "doi:10.1/m"
    (by decide)


theorem foldl_preserve {α β : Type} (P : β → Prop) (f : β → α → β)
    (h : ∀ b a, P b → P (f b a)) :
    ∀ (l : List α) (b : β), P b → P (l.foldl f b) := by
  intro l
  induction l with
  | nil => intro b hb; exact hb
  | cons a rest ih => intro b hb; exact ih _ (h b a hb)

/-- Every edge accumulated by the visualization loop carries the
`"cites"` tag. -/
theorem vizBuild_edges_cites (papers : List SeedEntry) :
    ∀ e ∈ (vizBuild papers).edges, e.2.2 = "cites" := by
  unfold vizBuild
  refine foldl_preserve (fun (st : VizState) => ∀ e ∈ st.edges, e.2.2 = "cites")
    vizStep ?_ papers {} (by intro e he; cases he)
  intro st entry hst
  unfold vizStep
  cases vizSeedKey entry with
  | none => exact hst
  | some seedKey =>
    refine foldl_preserve (fun (st : VizState) => ∀ e ∈ st.edges, e.2.2 = "cites")
      _ ?_ entry.cited_by _
      (foldl_preserve (fun (st : VizState) => ∀ e ∈ st.edges, e.2.2 = "cites")
        _ ?_ entry.references st hst)
    · intro st2 c hst2
      cases get_paper_key_viz c with
      | none => exact hst2
      | some citKey =>
        intro e he
        rcases List.mem_append.mp he with h1 | h2
        · exact hst2 e h1
        · rw [List.mem_singleton.mp h2]
    · intro st2 r hst2
      cases get_paper_key_viz r with
      | none => exact hst2
      | some refKey =>
        intro e he
        rcases List.mem_append.mp he with h1 | h2
        · exact hst2 e h1
        · rw [List.mem_singleton.mp h2]

/-- C9: every edge handed to the renderer has both endpoints in the
union of the three node partitions, and no two edges share the same
(source, target) pair. -/
theorem c9_edge_integrity (papers : List SeedEntry) (kc kk : Nat) :
    (∀ e ∈ (analyze_for_graph papers kc kk).edges,
      e.1 ∈ relevantKeys (analyze_for_graph papers kc kk).seed_papers
        (analyze_for_graph papers kc kk).cited_papers
        (analyze_for_graph papers kc kk).citing_papers ∧
      e.2.1 ∈ relevantKeys (analyze_for_graph papers kc kk).seed_papers
        (analyze_for_graph papers kc kk).cited_papers
        (analyze_for_graph papers kc kk).citing_papers) ∧
    List.Pairwise (fun a b => ¬(a.1 = b.1 ∧ a.2.1 = b.2.1))
      (analyze_for_graph papers kc kk).edges := by
  constructor
  · intro e he
    have he2 : e ∈ ((vizBuild papers).edges.filter
        (fun e => e.1 ∈ relevantKeys (vizSeedPapers papers)
            (vizFilter (vizSeedPapers papers) (vizBuild papers).refIdx kc)
            (vizFilter (vizSeedPapers papers) (vizBuild papers).citIdx kk) ∧
          e.2.1 ∈ relevantKeys (vizSeedPapers papers)
            (vizFilter (vizSeedPapers papers) (vizBuild papers).refIdx kc)
            (vizFilter (vizSeedPapers papers) (vizBuild papers).citIdx kk))) :=
      List.mem_dedup.mp he
    have := List.of_mem_filter he2
    exact of_decide_eq_true this
  · have hnd : (analyze_for_graph papers kc kk).edges.Nodup :=
      List.nodup_dedup _
    refine hnd.imp_of_mem ?_
    intro a b ha hb hne hab
    apply hne
    have ha2 : a.2.2 = "cites" := by
      have : a ∈ (vizBuild papers).edges :=
        List.mem_of_mem_filter (List.mem_dedup.mp ha)
      exact vizBuild_edges_cites papers a this
    have hb2 : b.2.2 = "cites" := by
      have : b ∈ (vizBuild papers).edges :=
        List.mem_of_mem_filter (List.mem_dedup.mp hb)
      exact vizBuild_edges_cites papers b this
    obtain ⟨a1, a2, a3⟩ := a
    obtain ⟨b1, b2, b3⟩ := b
    simp only at hab ha2 hb2
    simp [hab.1, hab.2, ha2, hb2]

/-- C9 witness: a concrete document with one seed and one
above-threshold reference produces one edge, whose endpoints are in the
partition union, and the edge list is pairwise distinct. -/
theorem c9_edge_integrity_witness :
    (("doi:10.1/s1", "doi:10.1/x", "cites") ∈
        (analyze_for_graph docDoiOnly 1 1).edges →
      ("doi:10.1/s1" : String) ∈
        relevantKeys (analyze_for_graph docDoiOnly 1 1).seed_papers
          (analyze_for_graph docDoiOnly 1 1).cited_papers
          (analyze_for_graph docDoiOnly 1 1).citing_papers) ∧
    ("doi:10.1/s1", "doi:10.1/x", "cites") ∈
      (analyze_for_graph docDoiOnly 1 1).edges :=
  ⟨fun hm => ((c9_edge_integrity docDoiOnly 1 1).1 _ hm).1, by decide⟩


theorem occList_append (rel : SeedEntry → List Paper)
    (l1 l2 : List SeedEntry) (k : String) :
    occList rel (l1 ++ l2) k = occList rel l1 k ++ occList rel l2 k := by
  unfold occList
  exact List.flatMap_append l1 l2 _

/-- C10: a seed entry whose metadata dict is present (truthy) but
resolves to no canonical key contributes nothing to the seed key set,
yet its relation lists are still processed: removing it changes no
seed-key membership, every occurrence count over references and citing
papers drops by exactly the number of its resolvable relation entries,
and each of its resolvable references / citing papers carries an
attribution pair built from its `input_doi` and display label. -/
theorem c10_keyless_seed_still_counts (pre post : List SeedEntry)
    (s : SeedEntry) (m : Paper) (hm : s.metadata = some m)
    (hkey : get_paper_key_analyze m = none) :
    (∀ k, k ∈ seedKeysAnalyze (pre ++ s :: post) ↔
      k ∈ seedKeysAnalyze (pre ++ post)) ∧
    (∀ k, occCount (fun p => p.references) (pre ++ s :: post) k =
      occCount (fun p => p.references) (pre ++ post) k +
        s.references.countP (fun r => get_paper_key_analyze r = some k)) ∧
    (∀ k, occCount (fun p => p.cited_by) (pre ++ s :: post) k =
      occCount (fun p => p.cited_by) (pre ++ post) k +
        s.cited_by.countP (fun r => get_paper_key_analyze r = some k)) ∧
    (∀ k r, r ∈ s.references → get_paper_key_analyze r = some k →
      (s.input_doi, get_seed_paper_label s) ∈
        seedsAt (buildIndexAnalyze (fun p => p.references)
          (pre ++ s :: post)) k) ∧
    (∀ k r, r ∈ s.cited_by → get_paper_key_analyze r = some k →
      (s.input_doi, get_seed_paper_label s) ∈
        seedsAt (buildIndexAnalyze (fun p => p.cited_by)
          (pre ++ s :: post)) k) := by
  have hblock : ∀ (rel : SeedEntry → List Paper) k,
      occList rel [s] k = ((rel s).filter
        (fun r => get_paper_key_analyze r = some k)).map
        (fun _ => (s.input_doi, get_seed_paper_label s)) := by
    intro rel k
    unfold occList
    simp [hm]
  have hsplit : ∀ (rel : SeedEntry → List Paper) k,
      occList rel (pre ++ s :: post) k =
        occList rel pre k ++ occList rel [s] k ++ occList rel post k := by
    intro rel k
    rw [show pre ++ s :: post = (pre ++ [s]) ++ post by simp]
    rw [occList_append, occList_append]
  refine ⟨?_, ?_, ?_, ?_, ?_⟩
  · intro k
    rw [mem_seedKeysAnalyze, mem_seedKeysAnalyze]
    constructor
    · rintro ⟨e, he, m2, hm2, hk2⟩
      rcases List.mem_append.mp he with h1 | h2
      · exact ⟨e, List.mem_append.mpr (Or.inl h1), m2, hm2, hk2⟩
      · rcases List.mem_cons.mp h2 with rfl | h3
        · rw [hm] at hm2
          cases hm2
          rw [hkey] at hk2
          cases hk2
        · exact ⟨e, List.mem_append.mpr (Or.inr h3), m2, hm2, hk2⟩
    · rintro ⟨e, he, m2, hm2, hk2⟩
      rcases List.mem_append.mp he with h1 | h2
      · exact ⟨e, List.mem_append.mpr (Or.inl h1), m2, hm2, hk2⟩
      · exact ⟨e, List.mem_append.mpr (Or.inr (List.mem_cons_of_mem s h2)),
          m2, hm2, hk2⟩
  · intro k
    unfold occCount
    rw [hsplit, occList_append, hblock]
    simp [List.countP_eq_length_filter]
    omega
  · intro k
    unfold occCount
    rw [hsplit, occList_append, hblock]
    simp [List.countP_eq_length_filter]
    omega
  · intro k r hr hk
    rw [seedsAt_build, hsplit, hblock]
    refine List.mem_append.mpr (Or.inl (List.mem_append.mpr (Or.inr ?_)))
    exact List.mem_map.mpr ⟨r, List.mem_filter.mpr ⟨hr, by simp [hk]⟩, rfl⟩
  · intro k r hr hk
    rw [seedsAt_build, hsplit, hblock]
    refine List.mem_append.mpr (Or.inl (List.mem_append.mpr (Or.inr ?_)))
    exact List.mem_map.mpr ⟨r, List.mem_filter.mpr ⟨hr, by simp [hk]⟩, rfl⟩

/-- C10 witness: the keyless seed entry (truthy metadata dict with an
empty title and no identifiers) adds nothing to the seed key set but
contributes one occurrence each for its reference and citing paper,
attributed via its `input_doi` and label. -/
theorem c10_keyless_seed_witness :
    (("title:paper a" : String) ∈ seedKeysAnalyze ([] ++ keylessSeed :: []) ↔
      ("title:paper a" : String) ∈ seedKeysAnalyze ([] ++ [])) ∧
    occCount (fun p => p.references) ([] ++ keylessSeed :: [])
      "title:paper x" =
      occCount (fun p => p.references) ([] ++ []) "title:paper x" +
        keylessSeed.references.countP
          (fun r => get_paper_key_analyze r = some "title:paper x") ∧
    ("10.1/k", "Unknown") ∈
      seedsAt (buildIndexAnalyze (fun p => p.references)
        ([] ++ keylessSeed :: [])) "title:paper x" := by
  obtain ⟨h1, h2, _, h4, _⟩ :=
    c10_keyless_seed_still_counts [] [] keylessSeed
      { title := some "", venue := some "Nowhere" } rfl (by decide)
  refine ⟨h1 "title:paper a", h2 "title:paper x", ?_⟩
  have := h4 "title:paper x" { title := some "Paper X" } (by decide)
    (by decide)
  simpa using this


/-! ### Lemmas on the string pipeline (for the normalization claims) -/

theorem pySplit_nil : pySplit [] = [] := rfl

theorem pySplit_cons_space (c : Char) (l : List Char)
    (h : pyIsSpace c = true) : pySplit (c :: l) = pySplit l := by
  simp [pySplit, pySplitAux, h]

theorem pySplitAux_acc (l : List Char) (acc : List Char) (h : acc ≠ []) :
    pySplitAux l acc =
      (acc.reverse ++ l.takeWhile (fun c => !pyIsSpace c)) ::
        pySplit (l.dropWhile (fun c => !pyIsSpace c)) := by
  induction l generalizing acc with
  | nil =>
    simp [pySplitAux, pySplit, List.isEmpty_iff, h]
  | cons c rest ih =>
    by_cases hc : pyIsSpace c
    · have h1 : pySplitAux (c :: rest) acc = acc.reverse :: pySplitAux rest [] := by
        simp [pySplitAux, hc, List.isEmpty_iff, h]
      have h2 : (c :: rest).takeWhile (fun d => !pyIsSpace d) = [] := by
        simp [List.takeWhile_cons, hc]
      have h3 : (c :: rest).dropWhile (fun d => !pyIsSpace d) = c :: rest := by
        simp [List.dropWhile_cons, hc]
      rw [h1, h2, h3, pySplit_cons_space c rest hc]
      simp [pySplit]
    · have hc2 : pyIsSpace c = false := by simpa using hc
      have h1 : pySplitAux (c :: rest) acc = pySplitAux rest (c :: acc) := by
        simp [pySplitAux, hc2]
      have h2 : (c :: rest).takeWhile (fun d => !pyIsSpace d) =
          c :: rest.takeWhile (fun d => !pyIsSpace d) := by
        simp [List.takeWhile_cons, hc2]
      have h3 : (c :: rest).dropWhile (fun d => !pyIsSpace d) =
          rest.dropWhile (fun d => !pyIsSpace d) := by
        simp [List.dropWhile_cons, hc2]
      rw [h1, h2, h3, ih (c :: acc) (by simp)]
      simp

theorem pySplit_cons_nonspace (c : Char) (l : List Char)
    (h : pyIsSpace c = false) :
    pySplit (c :: l) =
      (c :: l.takeWhile (fun d => !pyIsSpace d)) ::
        pySplit (l.dropWhile (fun d => !pyIsSpace d)) := by
  show pySplitAux (c :: l) [] = _
  simp only [pySplitAux, h, if_false, Bool.false_eq_true]
  rw [pySplitAux_acc l [c] (by simp)]
  rfl


theorem takeWhile_all_nonspace (w : List Char)
    (h : ∀ c ∈ w, pyIsSpace c = false) :
    w.takeWhile (fun d => !pyIsSpace d) = w ∧
    w.dropWhile (fun d => !pyIsSpace d) = [] := by
  induction w with
  | nil => exact ⟨rfl, rfl⟩
  | cons a w ih =>
    have ha : pyIsSpace a = false := h a (List.mem_cons_self a w)
    have := ih (fun c hc => h c (List.mem_cons_of_mem a hc))
    simp [List.takeWhile_cons, List.dropWhile_cons, ha, this.1, this.2]

theorem takeWhile_clean_word (w r : List Char)
    (hw : ∀ c ∈ w, pyIsSpace c = false) :
    (w ++ ' ' :: r).takeWhile (fun d => !pyIsSpace d) = w ∧
    (w ++ ' ' :: r).dropWhile (fun d => !pyIsSpace d) = ' ' :: r := by
  induction w with
  | nil =>
    constructor
    · simp [List.takeWhile_cons, show pyIsSpace ' ' = true from rfl]
    · simp [List.dropWhile_cons, show pyIsSpace ' ' = true from rfl]
  | cons a w ih =>
    have ha : pyIsSpace a = false := hw a (List.mem_cons_self a w)
    have := ih (fun c hc => hw c (List.mem_cons_of_mem a hc))
    simp [List.takeWhile_cons, List.dropWhile_cons, ha, this.1, this.2]

theorem pySplit_words_clean_aux (n : Nat) :
    ∀ l : List Char, l.length ≤ n → ∀ w ∈ pySplit l,
      w ≠ [] ∧ ∀ c ∈ w, pyIsSpace c = false := by
  induction n with
  | zero =>
    intro l hl w hw
    rw [List.length_eq_zero.mp (Nat.le_zero.mp hl)] at hw
    rw [pySplit_nil] at hw
    cases hw
  | succ n ih =>
    intro l hl w hw
    cases l with
    | nil => rw [pySplit_nil] at hw; cases hw
    | cons c rest =>
      simp only [List.length_cons] at hl
      by_cases hc : pyIsSpace c
      · rw [pySplit_cons_space c rest hc] at hw
        exact ih rest (by omega) w hw
      · have hc2 : pyIsSpace c = false := by simpa using hc
        rw [pySplit_cons_nonspace c rest hc2] at hw
        rcases List.mem_cons.mp hw with rfl | hw2
        · refine ⟨by simp, ?_⟩
          intro c2 hc2mem
          rcases List.mem_cons.mp hc2mem with rfl | hmem
          · exact hc2
          · have := List.mem_takeWhile_imp hmem
            simpa using this
        · have hlen : (rest.dropWhile (fun d => !pyIsSpace d)).length ≤ n := by
            have := (List.dropWhile_sublist
              (l := rest) (fun d => !pyIsSpace d)).length_le
            omega
          exact ih _ hlen w hw2

theorem pySplit_words_clean (l : List Char) :
    ∀ w ∈ pySplit l, w ≠ [] ∧ ∀ c ∈ w, pyIsSpace c = false :=
  pySplit_words_clean_aux l.length l le_rfl

theorem pySplit_pyJoin (ws : List (List Char))
    (h : ∀ w ∈ ws, w ≠ [] ∧ ∀ c ∈ w, pyIsSpace c = false) :
    pySplit (pyJoin ws) = ws := by
  induction ws with
  | nil => exact pySplit_nil
  | cons w ws ih =>
    obtain ⟨hne, hcl⟩ := h w (List.mem_cons_self w ws)
    obtain ⟨c, w2, rfl⟩ := List.exists_cons_of_ne_nil hne
    have hc : pyIsSpace c = false := hcl c (List.mem_cons_self c w2)
    have hw2 : ∀ d ∈ w2, pyIsSpace d = false :=
      fun d hd => hcl d (List.mem_cons_of_mem c hd)
    cases ws with
    | nil =>
      rw [show pyJoin [c :: w2] = c :: w2 from rfl]
      rw [pySplit_cons_nonspace c w2 hc]
      obtain ⟨ht, hd⟩ := takeWhile_all_nonspace w2 hw2
      rw [ht, hd, pySplit_nil]
    | cons w3 ws3 =>
      rw [show pyJoin ((c :: w2) :: w3 :: ws3) =
        (c :: w2) ++ ' ' :: pyJoin (w3 :: ws3) from rfl]
      rw [List.cons_append, pySplit_cons_nonspace c _ hc]
      obtain ⟨htw, hdw⟩ := takeWhile_clean_word w2 (pyJoin (w3 :: ws3)) hw2
      rw [htw, hdw, pySplit_cons_space ' ' _ rfl]
      rw [ih (fun x hx => h x (List.mem_cons_of_mem _ hx))]


theorem isPrefixOf_exists (m l : List Char) :
    m.isPrefixOf l = true ↔ ∃ t, l = m ++ t := by
  induction m generalizing l with
  | nil => simp [List.isPrefixOf]
  | cons a m ih =>
    cases l with
    | nil => simp [List.isPrefixOf]
    | cons b l =>
      simp only [List.isPrefixOf, Bool.and_eq_true, beq_iff_eq, ih,
        List.cons_append, List.cons.injEq]
      constructor
      · rintro ⟨rfl, t, rfl⟩
        exact ⟨t, rfl, rfl⟩
      · rintro ⟨t, rfl, rfl⟩
        exact ⟨rfl, t, rfl⟩

theorem pyReplAux_skip (needle : List Char) :
    ∀ (k : Nat) (l : List Char),
      pyReplAux needle l k = pyReplaceSp needle (l.drop k) := by
  intro k
  induction k with
  | zero => intro l; rfl
  | succ k ih =>
    intro l
    cases l with
    | nil => rfl
    | cons c rest =>
      show pyReplAux needle rest k = _
      rw [ih rest, List.drop_succ_cons]

theorem pyReplaceSp_cons (needle : List Char) (c : Char) (rest : List Char) :
    pyReplaceSp needle (c :: rest) =
      if needle.isPrefixOf (c :: rest) then
        ' ' :: pyReplaceSp needle (rest.drop (needle.length - 1))
      else c :: pyReplaceSp needle rest := by
  show pyReplAux needle (c :: rest) 0 = _
  by_cases h : needle.isPrefixOf (c :: rest)
  · rw [if_pos h]
    show (if needle.isPrefixOf (c :: rest) then
        ' ' :: pyReplAux needle rest (needle.length - 1)
      else c :: pyReplAux needle rest 0) = _
    rw [if_pos h, pyReplAux_skip]
  · rw [if_neg h]
    show (if needle.isPrefixOf (c :: rest) then
        ' ' :: pyReplAux needle rest (needle.length - 1)
      else c :: pyReplAux needle rest 0) = _
    rw [if_neg h]
    rfl

theorem replace_id_of_noOcc_aux (needle : List Char) (n : Nat) :
    ∀ l : List Char, l.length ≤ n → (¬ ∃ s t, l = s ++ needle ++ t) →
      pyReplaceSp needle l = l := by
  induction n with
  | zero =>
    intro l hl _
    rw [List.length_eq_zero.mp (Nat.le_zero.mp hl)]
    rfl
  | succ n ih =>
    intro l hl hocc
    cases l with
    | nil => rfl
    | cons c rest =>
      rw [pyReplaceSp_cons]
      have hpre : needle.isPrefixOf (c :: rest) = false := by
        rcases h : needle.isPrefixOf (c :: rest) with _ | _
        · rfl
        · obtain ⟨t, ht⟩ := (isPrefixOf_exists needle (c :: rest)).mp h
          exact absurd ⟨[], t, by simpa using ht⟩ hocc
      rw [hpre, if_neg (by simp)]
      simp only [List.length_cons] at hl
      rw [ih rest (by omega) ?_]
      rintro ⟨s, t, rfl⟩
      exact hocc ⟨c :: s, t, rfl⟩

theorem replace_prefix_inv (needle : List Char) (n : Nat) :
    ∀ (m : List Char), ' ' ∉ m → ∀ l : List Char, l.length ≤ n →
      (∃ t, pyReplaceSp needle l = m ++ t) → ∃ t, l = m ++ t := by
  induction n with
  | zero =>
    intro m hm l hl ⟨t, ht⟩
    rw [List.length_eq_zero.mp (Nat.le_zero.mp hl)] at ht ⊢
    rw [show pyReplaceSp needle [] = [] from rfl] at ht
    rcases List.append_eq_nil.mp ht.symm with ⟨rfl, rfl⟩
    exact ⟨[], rfl⟩
  | succ n ih =>
    intro m hm l hl ⟨t, ht⟩
    cases l with
    | nil =>
      rw [show pyReplaceSp needle [] = [] from rfl] at ht
      rcases List.append_eq_nil.mp ht.symm with ⟨rfl, rfl⟩
      exact ⟨[], rfl⟩
    | cons c rest =>
      simp only [List.length_cons] at hl
      rw [pyReplaceSp_cons] at ht
      by_cases hpre : needle.isPrefixOf (c :: rest)
      · rw [if_pos hpre] at ht
        cases m with
        | nil => exact ⟨c :: rest, rfl⟩
        | cons mh m2 =>
          rw [List.cons_append] at ht
          have h1 : ' ' = mh := ((List.cons.injEq _ _ _ _).mp ht).1
          exact absurd (List.mem_cons.mpr (Or.inl h1)) hm
      · rw [if_neg hpre] at ht
        cases m with
        | nil => exact ⟨c :: rest, rfl⟩
        | cons mh m2 =>
          rw [List.cons_append] at ht
          obtain ⟨hc, hrest⟩ := (List.cons.injEq _ _ _ _).mp ht
          obtain ⟨t2, ht2⟩ := ih m2
            (fun hmem => hm (List.mem_cons_of_mem mh hmem)) rest (by omega)
            ⟨t, hrest⟩
          exact ⟨t2, by rw [List.cons_append, hc, ht2]⟩

theorem replace_infix_inv (needle : List Char) (n : Nat) :
    ∀ (m : List Char), ' ' ∉ m → m ≠ [] → ∀ l : List Char, l.length ≤ n →
      (∃ s t, pyReplaceSp needle l = s ++ m ++ t) →
      ∃ s t, l = s ++ m ++ t := by
  induction n with
  | zero =>
    intro m hm hmne l hl ⟨s, t, ht⟩
    rw [List.length_eq_zero.mp (Nat.le_zero.mp hl)] at ht
    rw [show pyReplaceSp needle [] = [] from rfl] at ht
    rcases List.append_eq_nil.mp ht.symm with ⟨hsm, rfl⟩
    rcases List.append_eq_nil.mp hsm with ⟨rfl, rfl⟩
    exact absurd rfl hmne
  | succ n ih =>
    intro m hm hmne l hl ⟨s, t, ht⟩
    cases l with
    | nil =>
      rw [show pyReplaceSp needle [] = [] from rfl] at ht
      rcases List.append_eq_nil.mp ht.symm with ⟨hsm, rfl⟩
      rcases List.append_eq_nil.mp hsm with ⟨rfl, rfl⟩
      exact absurd rfl hmne
    | cons c rest =>
      simp only [List.length_cons] at hl
      rw [pyReplaceSp_cons] at ht
      by_cases hpre : needle.isPrefixOf (c :: rest)
      · rw [if_pos hpre] at ht
        cases s with
        | nil =>
          obtain ⟨mh, m2, rfl⟩ := List.exists_cons_of_ne_nil hmne
          rw [List.nil_append, List.cons_append] at ht
          have h1 : ' ' = mh := ((List.cons.injEq _ _ _ _).mp ht).1
          exact absurd (List.mem_cons.mpr (Or.inl h1)) hm
        | cons sh s2 =>
          rw [List.cons_append, List.cons_append] at ht
          obtain ⟨_, hrest⟩ := (List.cons.injEq _ _ _ _).mp ht
          have hlen : (rest.drop (needle.length - 1)).length ≤ n := by
            have := List.length_drop (needle.length - 1) rest
            omega
          obtain ⟨s3, t3, ht3⟩ := ih m hm hmne _ hlen ⟨s2, t, hrest⟩
          refine ⟨c :: rest.take (needle.length - 1) ++ s3, t3, ?_⟩
          have hr : rest = rest.take (needle.length - 1) ++
              (s3 ++ m ++ t3) := by
            rw [← ht3, List.take_append_drop]
          conv_lhs => rw [hr]
          simp [List.append_assoc]
      · rw [if_neg hpre] at ht
        cases s with
        | nil =>
          obtain ⟨mh, m2, rfl⟩ := List.exists_cons_of_ne_nil hmne
          rw [List.nil_append, List.cons_append] at ht
          obtain ⟨hc, hrest⟩ := (List.cons.injEq _ _ _ _).mp ht
          obtain ⟨t2, ht2⟩ := replace_prefix_inv needle rest.length m2
            (fun hmem => hm (List.mem_cons_of_mem mh hmem)) rest
            le_rfl ⟨t, hrest⟩
          exact ⟨[], t2, by rw [List.nil_append, List.cons_append, hc, ht2]⟩
        | cons sh s2 =>
          rw [List.cons_append, List.cons_append] at ht
          obtain ⟨hc, hrest⟩ := (List.cons.injEq _ _ _ _).mp ht
          obtain ⟨s3, t3, ht3⟩ := ih m hm hmne rest (by omega) ⟨s2, t, hrest⟩
          refine ⟨c :: s3, t3, ?_⟩
          rw [ht3]
          simp [List.append_assoc]

theorem replace_no_self_occ (needle : List Char) (hne : needle ≠ [])
    (hsp : ' ' ∉ needle) (n : Nat) :
    ∀ l : List Char, l.length ≤ n →
      ¬ ∃ s t, pyReplaceSp needle l = s ++ needle ++ t := by
  induction n with
  | zero =>
    intro l hl ⟨s, t, ht⟩
    rw [List.length_eq_zero.mp (Nat.le_zero.mp hl)] at ht
    rw [show pyReplaceSp needle [] = [] from rfl] at ht
    rcases List.append_eq_nil.mp ht.symm with ⟨hsm, rfl⟩
    rcases List.append_eq_nil.mp hsm with ⟨rfl, rfl⟩
    exact absurd rfl hne
  | succ n ih =>
    intro l hl ⟨s, t, ht⟩
    cases l with
    | nil =>
      rw [show pyReplaceSp needle [] = [] from rfl] at ht
      rcases List.append_eq_nil.mp ht.symm with ⟨hsm, rfl⟩
      rcases List.append_eq_nil.mp hsm with ⟨rfl, rfl⟩
      exact absurd rfl hne
    | cons c rest =>
      simp only [List.length_cons] at hl
      rw [pyReplaceSp_cons] at ht
      by_cases hpre : needle.isPrefixOf (c :: rest)
      · rw [if_pos hpre] at ht
        cases s with
        | nil =>
          obtain ⟨nh, n2, hn⟩ := List.exists_cons_of_ne_nil hne
          rw [hn, List.nil_append, List.cons_append] at ht
          have h1 : ' ' = nh := ((List.cons.injEq _ _ _ _).mp ht).1
          exact absurd (hn ▸ List.mem_cons.mpr (Or.inl h1)) hsp
        | cons sh s2 =>
          rw [List.cons_append, List.cons_append] at ht
          obtain ⟨_, hrest⟩ := (List.cons.injEq _ _ _ _).mp ht
          have hlen : (rest.drop (needle.length - 1)).length ≤ n := by
            have := List.length_drop (needle.length - 1) rest
            omega
          exact ih _ hlen ⟨s2, t, hrest⟩
      · rw [if_neg hpre] at ht
        cases s with
        | nil =>
          obtain ⟨nh, n2, hn⟩ := List.exists_cons_of_ne_nil hne
          rw [hn, List.nil_append, List.cons_append] at ht
          obtain ⟨hc, hrest⟩ := (List.cons.injEq _ _ _ _).mp ht
          have hn2 : ' ' ∉ n2 := fun hmem =>
            hsp (hn ▸ List.mem_cons_of_mem nh hmem)
          obtain ⟨t2, ht2⟩ := replace_prefix_inv (nh :: n2) rest.length n2
            hn2 rest le_rfl ⟨t, hrest⟩
          apply hpre
          rw [hn, isPrefixOf_exists]
          exact ⟨t2, by rw [List.cons_append, hc, ht2]⟩
        | cons sh s2 =>
          rw [List.cons_append, List.cons_append] at ht
          obtain ⟨_, hrest⟩ := (List.cons.injEq _ _ _ _).mp ht
          exact ih rest (by omega) ⟨s2, t, hrest⟩


theorem prefix_clean_cut (m : List Char) (hm : ' ' ∉ m) :
    ∀ (w r : List Char), (∃ t, w ++ ' ' :: r = m ++ t) →
      ∃ t, w = m ++ t := by
  induction m with
  | nil => intro w r _; exact ⟨w, rfl⟩
  | cons mh m2 ih =>
    intro w r ⟨t, ht⟩
    cases w with
    | nil =>
      rw [List.nil_append, List.cons_append] at ht
      have h1 : ' ' = mh := ((List.cons.injEq _ _ _ _).mp ht).1
      exact absurd (List.mem_cons.mpr (Or.inl h1)) hm
    | cons wh w2 =>
      rw [List.cons_append, List.cons_append] at ht
      obtain ⟨hc, hrest⟩ := (List.cons.injEq _ _ _ _).mp ht
      obtain ⟨t2, ht2⟩ := ih (fun hx => hm (List.mem_cons_of_mem mh hx))
        w2 r ⟨t, hrest⟩
      exact ⟨t2, by rw [List.cons_append, hc, ht2]⟩

theorem occ_join_word (m : List Char) (hm : ' ' ∉ m) (hmne : m ≠ []) :
    ∀ (w : List Char), (∀ c ∈ w, pyIsSpace c = false) → ∀ (r : List Char),
      (∃ s t, w ++ ' ' :: r = s ++ m ++ t) →
      (∃ s t, w = s ++ m ++ t) ∨ (∃ s t, r = s ++ m ++ t) := by
  intro w
  induction w with
  | nil =>
    intro _ r ⟨s, t, ht⟩
    rw [List.nil_append] at ht
    cases s with
    | nil =>
      obtain ⟨mh, m2, rfl⟩ := List.exists_cons_of_ne_nil hmne
      rw [List.nil_append, List.cons_append] at ht
      have h1 : ' ' = mh := ((List.cons.injEq _ _ _ _).mp ht).1
      exact absurd (List.mem_cons.mpr (Or.inl h1)) hm
    | cons sh s2 =>
      rw [List.cons_append] at ht
      obtain ⟨_, hrest⟩ := (List.cons.injEq _ _ _ _).mp ht
      exact Or.inr ⟨s2, t, hrest⟩
  | cons c w2 ih =>
    intro hw r ⟨s, t, ht⟩
    cases s with
    | nil =>
      rw [List.nil_append] at ht
      obtain ⟨t2, ht2⟩ := prefix_clean_cut m hm (c :: w2) r ⟨t, by rw [ht]⟩
      exact Or.inl ⟨[], t2, by rw [List.nil_append, ht2]⟩
    | cons sh s2 =>
      rw [List.cons_append, List.cons_append] at ht
      obtain ⟨hc, hrest⟩ := (List.cons.injEq _ _ _ _).mp ht
      rcases ih (fun d hd => hw d (List.mem_cons_of_mem c hd)) r
        ⟨s2, t, hrest⟩ with ⟨s3, t3, ht3⟩ | hr
      · exact Or.inl ⟨c :: s3, t3, by rw [ht3]; simp [List.append_assoc]⟩
      · exact Or.inr hr

theorem occ_pyJoin (m : List Char) (hm : ' ' ∉ m) (hmne : m ≠ []) :
    ∀ (ws : List (List Char)),
      (∀ w ∈ ws, w ≠ [] ∧ ∀ c ∈ w, pyIsSpace c = false) →
      (∃ s t, pyJoin ws = s ++ m ++ t) →
      ∃ w ∈ ws, ∃ s t, w = s ++ m ++ t := by
  intro ws
  induction ws with
  | nil =>
    intro _ ⟨s, t, ht⟩
    rw [show pyJoin [] = [] from rfl] at ht
    rcases List.append_eq_nil.mp ht.symm with ⟨hsm, rfl⟩
    rcases List.append_eq_nil.mp hsm with ⟨rfl, rfl⟩
    exact absurd rfl hmne
  | cons w ws2 ih =>
    intro hcl hocc
    cases ws2 with
    | nil =>
      rw [show pyJoin [w] = w from rfl] at hocc
      exact ⟨w, List.mem_cons_self w [], hocc⟩
    | cons w3 ws3 =>
      rw [show pyJoin (w :: w3 :: ws3) = w ++ ' ' :: pyJoin (w3 :: ws3)
        from rfl] at hocc
      rcases occ_join_word m hm hmne w
        (hcl w (List.mem_cons_self w _)).2 _ hocc with hw | hj
      · exact ⟨w, List.mem_cons_self w _, hw⟩
      · obtain ⟨w4, hw4, hocc4⟩ :=
          ih (fun x hx => hcl x (List.mem_cons_of_mem w hx)) hj
        exact ⟨w4, List.mem_cons_of_mem w hw4, hocc4⟩

theorem pySplit_word_infix_aux (n : Nat) :
    ∀ l : List Char, l.length ≤ n → ∀ w ∈ pySplit l,
      ∃ s t, l = s ++ w ++ t := by
  induction n with
  | zero =>
    intro l hl w hw
    rw [List.length_eq_zero.mp (Nat.le_zero.mp hl), pySplit_nil] at hw
    cases hw
  | succ n ih =>
    intro l hl w hw
    cases l with
    | nil => rw [pySplit_nil] at hw; cases hw
    | cons c rest =>
      simp only [List.length_cons] at hl
      by_cases hc : pyIsSpace c
      · rw [pySplit_cons_space c rest hc] at hw
        obtain ⟨s, t, ht⟩ := ih rest (by omega) w hw
        exact ⟨c :: s, t, by rw [ht]; rfl⟩
      · have hc2 : pyIsSpace c = false := by simpa using hc
        rw [pySplit_cons_nonspace c rest hc2] at hw
        rcases List.mem_cons.mp hw with rfl | hw2
        · refine ⟨[], rest.dropWhile (fun d => !pyIsSpace d), ?_⟩
          simp only [List.nil_append, List.cons_append]
          rw [List.takeWhile_append_dropWhile]
        · have hlen : (rest.dropWhile (fun d => !pyIsSpace d)).length ≤ n := by
            have := (List.dropWhile_sublist
              (l := rest) (fun d => !pyIsSpace d)).length_le
            omega
          obtain ⟨s, t, ht⟩ := ih _ hlen w hw2
          refine ⟨c :: rest.takeWhile (fun d => !pyIsSpace d) ++ s, t, ?_⟩
          conv_lhs => rw [show rest =
            rest.takeWhile (fun d => !pyIsSpace d) ++
              rest.dropWhile (fun d => !pyIsSpace d) from
            (List.takeWhile_append_dropWhile _ _).symm, ht]
          simp [List.append_assoc]

theorem occ_pyCollapse (m : List Char) (hm : ' ' ∉ m) (hmne : m ≠ [])
    (l : List Char) (hocc : ∃ s t, pyCollapse l = s ++ m ++ t) :
    ∃ s t, l = s ++ m ++ t := by
  obtain ⟨w, hw, s2, t2, ht2⟩ :=
    occ_pyJoin m hm hmne (pySplit l) (pySplit_words_clean l) hocc
  obtain ⟨s1, t1, ht1⟩ :=
    pySplit_word_infix_aux l.length l le_rfl w hw
  refine ⟨s1 ++ s2, t2 ++ t1, ?_⟩
  rw [ht1, ht2]
  simp [List.append_assoc]

theorem pyStrip_infix (l : List Char) :
    ∃ s t, l = s ++ pyStrip l ++ t := by
  refine ⟨l.takeWhile pyIsSpace,
    ((l.dropWhile pyIsSpace).reverse.takeWhile pyIsSpace).reverse, ?_⟩
  have hd : l.dropWhile pyIsSpace =
      ((l.dropWhile pyIsSpace).reverse.dropWhile pyIsSpace).reverse ++
        ((l.dropWhile pyIsSpace).reverse.takeWhile pyIsSpace).reverse := by
    conv_lhs => rw [← List.reverse_reverse (l.dropWhile pyIsSpace)]
    conv_lhs => rw [← List.takeWhile_append_dropWhile pyIsSpace
      (l.dropWhile pyIsSpace).reverse]
    rw [List.reverse_append]
  conv_lhs => rw [← List.takeWhile_append_dropWhile pyIsSpace l, hd]
  unfold pyStrip
  simp [List.append_assoc]

theorem occ_of_occ_infix (m A l : List Char)
    (hinf : ∃ s t, l = s ++ A ++ t) (hocc : ∃ s t, A = s ++ m ++ t) :
    ∃ s t, l = s ++ m ++ t := by
  obtain ⟨s1, t1, rfl⟩ := hinf
  obtain ⟨s2, t2, rfl⟩ := hocc
  exact ⟨s1 ++ s2, t2 ++ t1, by simp [List.append_assoc]⟩

theorem occ_take (m l : List Char) (n : Nat)
    (hocc : ∃ s t, l.take n = s ++ m ++ t) : ∃ s t, l = s ++ m ++ t :=
  occ_of_occ_infix m (l.take n) l
    ⟨[], l.drop n, by rw [List.nil_append, List.take_append_drop]⟩ hocc


theorem pyStrip_eq_self (l : List Char)
    (hh : ∀ c, l.head? = some c → pyIsSpace c = false)
    (hl : ∀ c, l.getLast? = some c → pyIsSpace c = false) :
    pyStrip l = l := by
  cases l with
  | nil => rfl
  | cons a l2 =>
    have ha : pyIsSpace a = false := hh a rfl
    unfold pyStrip
    rw [List.dropWhile_cons_of_neg (by simp [ha])]
    cases hx : (a :: l2).reverse with
    | nil => exact absurd hx (by simp)
    | cons b xr =>
      have hb : (a :: l2).getLast? = some b := by
        rw [← List.head?_reverse, hx]
        rfl
      rw [List.dropWhile_cons_of_neg (p := pyIsSpace) (l := xr)
        (by simp [hl b hb])]
      have h3 := congrArg List.reverse hx
      rw [List.reverse_reverse] at h3
      exact h3.symm

theorem mem_pyJoin (c : Char) (ws : List (List Char))
    (h : c ∈ pyJoin ws) : (∃ w ∈ ws, c ∈ w) ∨ c = ' ' := by
  induction ws with
  | nil => cases h
  | cons w ws2 ih =>
    cases ws2 with
    | nil => exact Or.inl ⟨w, List.mem_cons_self w [], h⟩
    | cons w3 ws3 =>
      rw [show pyJoin (w :: w3 :: ws3) = w ++ ' ' :: pyJoin (w3 :: ws3)
        from rfl] at h
      rcases List.mem_append.mp h with hw | hr
      · exact Or.inl ⟨w, List.mem_cons_self w _, hw⟩
      · rcases List.mem_cons.mp hr with rfl | hj
        · exact Or.inr rfl
        · rcases ih hj with ⟨w4, hw4, hc4⟩ | hsp
          · exact Or.inl ⟨w4, List.mem_cons_of_mem w hw4, hc4⟩
          · exact Or.inr hsp

theorem mem_pyCollapse (c : Char) (l : List Char)
    (h : c ∈ pyCollapse l) : c ∈ l ∨ c = ' ' := by
  rcases mem_pyJoin c (pySplit l) h with ⟨w, hw, hc⟩ | hsp
  · obtain ⟨s, t, ht⟩ := pySplit_word_infix_aux l.length l le_rfl w hw
    exact Or.inl (by rw [ht]; simp [hc])
  · exact Or.inr hsp

theorem mem_pyReplaceSp_aux (needle : List Char) (n : Nat) :
    ∀ l : List Char, l.length ≤ n → ∀ c ∈ pyReplaceSp needle l,
      c ∈ l ∨ c = ' ' := by
  induction n with
  | zero =>
    intro l hlen c hc
    rw [List.length_eq_zero.mp (Nat.le_zero.mp hlen)] at hc
    cases hc
  | succ n ih =>
    intro l hlen c hc
    cases l with
    | nil => cases hc
    | cons a rest =>
      simp only [List.length_cons] at hlen
      rw [pyReplaceSp_cons] at hc
      by_cases hpre : needle.isPrefixOf (a :: rest)
      · rw [if_pos hpre] at hc
        rcases List.mem_cons.mp hc with rfl | hc2
        · exact Or.inr rfl
        · have hlen2 : (rest.drop (needle.length - 1)).length ≤ n := by
            have := List.length_drop (needle.length - 1) rest
            omega
          rcases ih _ hlen2 c hc2 with hmem | hsp
          · exact Or.inl (List.mem_cons_of_mem a (List.mem_of_mem_drop hmem))
          · exact Or.inr hsp
      · rw [if_neg hpre] at hc
        rcases List.mem_cons.mp hc with rfl | hc2
        · exact Or.inl (List.mem_cons_self c rest)
        · rcases ih rest (by omega) c hc2 with hmem | hsp
          · exact Or.inl (List.mem_cons_of_mem a hmem)
          · exact Or.inr hsp

theorem mem_foldl_replace (nds : List (List Char)) :
    ∀ (l : List Char) (c : Char),
      c ∈ nds.foldl (fun acc nd => pyReplaceSp nd acc) l →
      c ∈ l ∨ c = ' ' := by
  induction nds with
  | nil => intro l c hc; exact Or.inl hc
  | cons nd nds2 ih =>
    intro l c hc
    rcases ih (pyReplaceSp nd l) c hc with hmem | hsp
    · exact mem_pyReplaceSp_aux nd l.length l le_rfl c hmem
    · exact Or.inr hsp

theorem mem_pyStrip (c : Char) (l : List Char) (h : c ∈ pyStrip l) :
    c ∈ l := by
  obtain ⟨s, t, ht⟩ := pyStrip_infix l
  rw [ht]
  simp [h]

theorem pyToLower_idem (c : Char) :
    pyToLower (pyToLower c) = pyToLower c := by
  by_cases h : (c.toNat ≥ 65 && c.toNat ≤ 90) = true
  · have hrange : c.toNat ≥ 65 ∧ c.toNat ≤ 90 := by
      simpa using h
    have hval : (Char.ofNat (c.toNat + 32)).toNat = c.toNat + 32 := by
      unfold Char.ofNat
      rw [dif_pos (Or.inl (by omega : c.toNat + 32 < 55296))]
      rfl
    have h1 : pyToLower c = Char.ofNat (c.toNat + 32) := by
      unfold pyToLower
      rw [if_pos h]
    have h2 : pyToLower (Char.ofNat (c.toNat + 32)) =
        Char.ofNat (c.toNat + 32) := by
      unfold pyToLower
      apply if_neg
      simp only [hval, Bool.and_eq_true, decide_eq_true_eq]
      omega
    rw [h1, h2]
  · have h1 : pyToLower c = c := by
      unfold pyToLower
      rw [if_neg h]
    rw [h1, h1]

theorem pyLower_fix (l : List Char) (h : ∀ c ∈ l, pyToLower c = c) :
    pyLower l = l := by
  unfold pyLower
  induction l with
  | nil => rfl
  | cons a rest ih =>
    rw [List.map_cons, h a (List.mem_cons_self a rest),
      ih (fun c hc => h c (List.mem_cons_of_mem a hc))]


theorem foldl_replace_preserves_noOcc (m : List Char) (hm : ' ' ∉ m)
    (hmne : m ≠ []) (nds : List (List Char)) :
    ∀ l : List Char, (¬ ∃ s t, l = s ++ m ++ t) →
      ¬ ∃ s t, nds.foldl (fun acc nd => pyReplaceSp nd acc) l =
        s ++ m ++ t := by
  induction nds with
  | nil => intro l hl; exact hl
  | cons nd nds2 ih =>
    intro l hl
    refine ih (pyReplaceSp nd l) ?_
    intro hocc
    exact hl (replace_infix_inv nd l.length m hm hmne l le_rfl hocc)

theorem foldl_replace_noOcc (nds : List (List Char))
    (hv : ∀ nd ∈ nds, nd ≠ [] ∧ ' ' ∉ nd) :
    ∀ (l : List Char) (nd : List Char), nd ∈ nds →
      ¬ ∃ s t, nds.foldl (fun acc n2 => pyReplaceSp n2 acc) l =
        s ++ nd ++ t := by
  induction nds with
  | nil => intro l nd hnd; cases hnd
  | cons n1 nds2 ih =>
    intro l nd hnd
    rcases List.mem_cons.mp hnd with rfl | hnd2
    · obtain ⟨hne, hsp⟩ := hv nd (List.mem_cons_self nd nds2)
      exact foldl_replace_preserves_noOcc nd hsp hne nds2
        (pyReplaceSp nd l)
        (replace_no_self_occ nd hne hsp l.length l le_rfl)
    · exact ih (fun x hx => hv x (List.mem_cons_of_mem n1 hx))
        (pyReplaceSp n1 l) nd hnd2

theorem foldl_replace_id (nds : List (List Char)) :
    ∀ l : List Char, (∀ nd ∈ nds, ¬ ∃ s t, l = s ++ nd ++ t) →
      nds.foldl (fun acc nd => pyReplaceSp nd acc) l = l := by
  induction nds with
  | nil => intro l _; rfl
  | cons n1 nds2 ih =>
    intro l hl
    have h1 : pyReplaceSp n1 l = l :=
      replace_id_of_noOcc_aux n1 l.length l le_rfl
        (hl n1 (List.mem_cons_self n1 nds2))
    show nds2.foldl (fun acc nd => pyReplaceSp nd acc) (pyReplaceSp n1 l) = l
    rw [h1]
    exact ih l (fun nd hnd => hl nd (List.mem_cons_of_mem n1 hnd))

theorem getLast_some_mem (l : List Char) (a : Char)
    (h : l.getLast? = some a) : a ∈ l := by
  obtain ⟨hne, rfl⟩ := List.mem_getLast?_eq_getLast (l := l) (x := a)
    (by rw [h]; rfl)
  exact List.getLast_mem hne

theorem getLast_cons_ne_nil (a : Char) (l : List Char) (h : l ≠ []) :
    (a :: l).getLast? = l.getLast? := by
  cases l with
  | nil => exact absurd rfl h
  | cons b t => rfl

theorem pyJoin_ne_nil (w : List Char) (ws : List (List Char))
    (hw : w ≠ []) : pyJoin (w :: ws) ≠ [] := by
  cases ws with
  | nil => exact hw
  | cons w3 ws3 =>
    rw [show pyJoin (w :: w3 :: ws3) = w ++ ' ' :: pyJoin (w3 :: ws3)
      from rfl]
    simp

theorem pyJoin_head_nonspace (ws : List (List Char))
    (h : ∀ w ∈ ws, w ≠ [] ∧ ∀ c ∈ w, pyIsSpace c = false) :
    ∀ c, (pyJoin ws).head? = some c → pyIsSpace c = false := by
  cases ws with
  | nil => intro c hc; cases hc
  | cons w ws2 =>
    obtain ⟨hne, hcl⟩ := h w (List.mem_cons_self w ws2)
    obtain ⟨wh, w2, rfl⟩ := List.exists_cons_of_ne_nil hne
    intro c hc
    cases ws2 with
    | nil =>
      rw [show pyJoin [wh :: w2] = wh :: w2 from rfl] at hc
      cases hc
      exact hcl wh (List.mem_cons_self wh w2)
    | cons w3 ws3 =>
      rw [show pyJoin ((wh :: w2) :: w3 :: ws3) =
        (wh :: w2) ++ ' ' :: pyJoin (w3 :: ws3) from rfl,
        List.cons_append] at hc
      cases hc
      exact hcl wh (List.mem_cons_self wh w2)

theorem pyJoin_getLast_nonspace (ws : List (List Char))
    (h : ∀ w ∈ ws, w ≠ [] ∧ ∀ c ∈ w, pyIsSpace c = false) :
    ∀ c, (pyJoin ws).getLast? = some c → pyIsSpace c = false := by
  induction ws with
  | nil => intro c hc; cases hc
  | cons w ws2 ih =>
    obtain ⟨hne, hcl⟩ := h w (List.mem_cons_self w ws2)
    intro c hc
    cases ws2 with
    | nil =>
      rw [show pyJoin [w] = w from rfl] at hc
      exact hcl c (getLast_some_mem w c hc)
    | cons w3 ws3 =>
      rw [show pyJoin (w :: w3 :: ws3) = w ++ ' ' :: pyJoin (w3 :: ws3)
        from rfl] at hc
      rw [List.getLast?_append_of_ne_nil w
        (show (' ' :: pyJoin (w3 :: ws3)) ≠ [] by simp)] at hc
      have hne3 : pyJoin (w3 :: ws3) ≠ [] :=
        pyJoin_ne_nil w3 ws3 (h w3 (by simp)).1
      rw [getLast_cons_ne_nil ' ' _ hne3] at hc
      exact ih (fun x hx => h x (List.mem_cons_of_mem w hx)) c hc

theorem take_pyJoin_clean (n : Nat) :
    ∀ ws : List (List Char),
      (∀ w ∈ ws, w ≠ [] ∧ ∀ c ∈ w, pyIsSpace c = false) →
      ((pyJoin ws).take n).getLast? ≠ some ' ' →
      ∃ ws2, (pyJoin ws).take n = pyJoin ws2 ∧
        ∀ w ∈ ws2, w ≠ [] ∧ ∀ c ∈ w, pyIsSpace c = false := by
  induction n using Nat.strong_induction_on with
  | _ n ihn =>
  intro ws hcl htr
  cases ws with
  | nil => exact ⟨[], by simp [pyJoin], by simp⟩
  | cons w ws2 =>
    obtain ⟨hne, hwcl⟩ := hcl w (List.mem_cons_self w ws2)
    cases ws2 with
    | nil =>
      rw [show pyJoin [w] = w from rfl] at htr ⊢
      cases hn : n with
      | zero => exact ⟨[], by simp [pyJoin], by simp⟩
      | succ n2 =>
        refine ⟨[w.take (n2 + 1)], rfl, ?_⟩
        intro x hx
        rw [List.mem_singleton.mp hx]
        obtain ⟨wh, w2, rfl⟩ := List.exists_cons_of_ne_nil hne
        exact ⟨by simp, fun c hc => hwcl c (List.mem_of_mem_take hc)⟩
    | cons w3 ws3 =>
      rw [show pyJoin (w :: w3 :: ws3) = w ++ ' ' :: pyJoin (w3 :: ws3)
        from rfl] at htr ⊢
      rcases Nat.lt_or_ge n (w.length + 1) with hlt | hge
      · have htk : (w ++ ' ' :: pyJoin (w3 :: ws3)).take n = w.take n := by
          rw [List.take_append_eq_append_take,
            show n - w.length = 0 from by omega]
          simp
        rw [htk] at htr ⊢
        cases hn : n with
        | zero => exact ⟨[], by simp [pyJoin], by simp⟩
        | succ n2 =>
          refine ⟨[w.take (n2 + 1)], rfl, ?_⟩
          intro x hx
          rw [List.mem_singleton.mp hx]
          obtain ⟨wh, w2, rfl⟩ := List.exists_cons_of_ne_nil hne
          exact ⟨by simp, fun c hc => hwcl c (List.mem_of_mem_take hc)⟩
      · rcases Nat.eq_or_lt_of_le hge with heq | hgt
        · exfalso
          apply htr
          rw [List.take_append_eq_append_take,
            show n - w.length = 1 from by omega,
            List.take_of_length_le (by omega)]
          rw [show (' ' :: pyJoin (w3 :: ws3)).take 1 = [' '] from rfl]
          rw [List.getLast?_concat]
        · have hn1 : n - w.length = (n - w.length - 1) + 1 := by omega
          have htk : (w ++ ' ' :: pyJoin (w3 :: ws3)).take n =
              w ++ ' ' :: (pyJoin (w3 :: ws3)).take (n - w.length - 1) := by
            rw [List.take_append_eq_append_take,
              List.take_of_length_le (by omega), hn1, List.take_succ_cons]
            simp
          rw [htk] at htr ⊢
          have hJne : pyJoin (w3 :: ws3) ≠ [] :=
            pyJoin_ne_nil w3 ws3 (hcl w3 (by simp)).1
          have htkne : (pyJoin (w3 :: ws3)).take (n - w.length - 1) ≠ [] := by
            rw [Ne, List.take_eq_nil_iff]
            push_neg
            exact ⟨by omega, hJne⟩
          have htr2 : ((pyJoin (w3 :: ws3)).take (n - w.length - 1)).getLast? ≠
              some ' ' := by
            intro hbad
            apply htr
            rw [List.getLast?_append_of_ne_nil w (show
              (' ' :: (pyJoin (w3 :: ws3)).take (n - w.length - 1)) ≠ []
              by simp)]
            rw [getLast_cons_ne_nil ' ' _ htkne]
            exact hbad
          obtain ⟨ws4, hws4, hcl4⟩ := ihn (n - w.length - 1) (by omega)
            (w3 :: ws3) (fun x hx => hcl x (List.mem_cons_of_mem w hx)) htr2
          have hws4ne : ws4 ≠ [] := by
            intro hbad
            rw [hbad] at hws4
            exact htkne (hws4.trans rfl)
          obtain ⟨w5, ws5, rfl⟩ := List.exists_cons_of_ne_nil hws4ne
          refine ⟨w :: w5 :: ws5, ?_, ?_⟩
          · rw [show pyJoin (w :: w5 :: ws5) =
              w ++ ' ' :: pyJoin (w5 :: ws5) from rfl, ← hws4]
          · intro x hx
            rcases List.mem_cons.mp hx with rfl | hx2
            · exact ⟨hne, hwcl⟩
            · exact hcl4 x hx2


theorem normTitleL_fix (l : List Char)
    (htr : (normTitleL l).getLast? ≠ some ' ') :
    normTitleL (normTitleL l) = normTitleL l := by
  have hv : ∀ nd ∈ punctNeedles, nd ≠ [] ∧ ' ' ∉ nd := by decide
  set n1 := pyCollapse (pyLower l) with hn1
  set n2 := punctNeedles.foldl (fun acc nd => pyReplaceSp nd acc) n1 with hn2
  have hclean : ∀ w ∈ pySplit n2, w ≠ [] ∧ ∀ c ∈ w, pyIsSpace c = false :=
    pySplit_words_clean n2
  have hn3 : pyCollapse n2 = pyJoin (pySplit n2) := rfl
  have hstrip3 : pyStrip (pyCollapse n2) = pyCollapse n2 := by
    rw [hn3]
    exact pyStrip_eq_self _ (pyJoin_head_nonspace _ hclean)
      (pyJoin_getLast_nonspace _ hclean)
  have hr : normTitleL l = (pyCollapse n2).take 150 := by
    show (pyStrip (pyCollapse n2)).take 150 = _
    rw [hstrip3]
  rw [hr] at htr ⊢
  set r := (pyCollapse n2).take 150 with hrdef
  obtain ⟨ws2, hws2, hcl2⟩ := take_pyJoin_clean 150 (pySplit n2) hclean
    (by rw [← hn3]; exact htr)
  rw [hn3] at hrdef
  have hrjoin : r = pyJoin ws2 := by rw [hrdef, hws2]
  have hlower : pyLower r = r := by
    apply pyLower_fix
    intro c hc
    have h1 : c ∈ pyCollapse n2 := List.mem_of_mem_take hc
    rcases mem_pyCollapse c n2 h1 with h2 | rfl
    · rcases mem_foldl_replace punctNeedles n1 c h2 with h3 | rfl
      · rcases mem_pyCollapse c (pyLower l) h3 with h4 | rfl
        · obtain ⟨d, _, rfl⟩ := List.mem_map.mp h4
          exact pyToLower_idem d
        · rfl
      · rfl
    · rfl
  have hcollapse : pyCollapse r = r := by
    rw [hrjoin]
    show pyJoin (pySplit (pyJoin ws2)) = pyJoin ws2
    rw [pySplit_pyJoin ws2 hcl2]
  have hfold : punctNeedles.foldl (fun acc nd => pyReplaceSp nd acc) r = r := by
    apply foldl_replace_id
    intro nd hnd hocc
    obtain ⟨hne, hsp⟩ := hv nd hnd
    have h1 : ∃ s t, pyCollapse n2 = s ++ nd ++ t := occ_take nd _ 150 hocc
    have h2 : ∃ s t, n2 = s ++ nd ++ t := occ_pyCollapse nd hsp hne n2 h1
    exact foldl_replace_noOcc punctNeedles hv n1 nd hnd h2
  have hstrip : pyStrip r = r := by
    rw [hrjoin]
    exact pyStrip_eq_self _ (pyJoin_head_nonspace _ hcl2)
      (pyJoin_getLast_nonspace _ hcl2)
  have htake : r.take 150 = r := by
    apply List.take_of_length_le
    rw [hrdef]
    exact (List.length_take_le 150 _).trans (by omega)
  show (pyStrip (pyCollapse (punctNeedles.foldl
    (fun acc nd => pyReplaceSp nd acc) (pyCollapse (pyLower r))))).take 150 = r
  rw [hlower, hcollapse, hfold, hcollapse, hstrip, htake]

/-- C5 counterexample: `normalize_title` is not idempotent — a title
whose collapsed form has a space at position 150 is truncated to a
string ending in a space, which a second normalization removes. -/
theorem c5_not_idempotent_counterexample :
    normalize_title (normalize_title truncTitle) ≠
      normalize_title truncTitle := by
  decide

set_option maxHeartbeats 2000000 in
/-- C5 (amended): `normalize_title` is idempotent on every title whose
normalized form does not end in a space, i.e. whenever the final
150-character truncation does not expose a trailing space — the only
failure mode. -/
theorem c5_idempotent_unless_truncated_space (t : String)
    (h : (normalize_title t).data.getLast? ≠ some ' ') :
    normalize_title (normalize_title t) = normalize_title t := by
  by_cases ht : t = ""
  · rw [ht]
    rfl
  · have hgen : ∀ s : String, s ≠ "" →
        normalize_title s = ⟨normTitleL s.data⟩ := by
      intro s hs
      unfold normalize_title
      rw [if_neg hs]
    rw [hgen t ht] at h ⊢
    by_cases hr : normTitleL t.data = []
    · rw [hr]
      rfl
    · have hdata : (⟨normTitleL t.data⟩ : String) ≠ "" := by
        intro hbad
        exact hr (congrArg String.data hbad)
      rw [hgen _ hdata]
      exact congrArg String.mk (normTitleL_fix t.data h)

/-- C5 witness: a title with punctuation and duplicated spaces whose
normalization does not end in a space is a fixed point of a second
normalization. -/
theorem c5_idempotent_witness :
    ((normalize_title "Hello:  World").data.getLast? ≠ some ' ') ∧
    normalize_title (normalize_title "Hello:  World") =
      normalize_title "Hello:  World" :=
  ⟨by decide, c5_idempotent_unless_truncated_space "Hello:  World"
    (by decide)⟩


/-! ### Lemmas for the aggregator / graph-builder comparison -/

theorem aupsert_keys {β : Type} (l : List (String × β)) (k : String)
    (f : β → β) (init : β) :
    (aupsert l k f init).map Prod.fst =
      if k ∈ l.map Prod.fst then l.map Prod.fst
      else l.map Prod.fst ++ [k] := by
  induction l with
  | nil => simp [aupsert]
  | cons e rest ih =>
    show ((if e.1 = k then (k, f e.2) :: rest
      else e :: aupsert rest k f init).map Prod.fst) = _
    by_cases he : e.1 = k
    · rw [if_pos he]
      have hk : k ∈ (e :: rest).map Prod.fst := by
        simp [he.symm]
      rw [if_pos hk]
      simp [he]
    · rw [if_neg he, List.map_cons, ih, List.map_cons]
      by_cases hk : k ∈ rest.map Prod.fst
      · rw [if_pos hk, if_pos (List.mem_cons_of_mem e.1 hk)]
      · rw [if_neg hk, if_neg ?_]
        · rfl
        · intro hbad
          rcases List.mem_cons.mp hbad with h1 | h2
          · exact he h1.symm
          · exact hk h2

theorem aupsert_keys_nodup {β : Type} (l : List (String × β)) (k : String)
    (f : β → β) (init : β) (h : (l.map Prod.fst).Nodup) :
    ((aupsert l k f init).map Prod.fst).Nodup := by
  rw [aupsert_keys]
  by_cases hk : k ∈ l.map Prod.fst
  · rw [if_pos hk]; exact h
  · rw [if_neg hk]
    simp only [List.nodup_append, List.nodup_cons, List.not_mem_nil,
      not_false_iff, List.nodup_nil, and_true, true_and, h]
    exact fun a ha hak => hk ((List.mem_singleton.mp hak) ▸ ha)

theorem alookup_eq_some_of_mem {β : Type} (l : List (String × β))
    (hnd : (l.map Prod.fst).Nodup) (k : String) (v : β)
    (hmem : (k, v) ∈ l) : alookup l k = some v := by
  induction l with
  | nil => cases hmem
  | cons e rest ih =>
    simp only [List.map_cons, List.nodup_cons] at hnd
    rw [alookup_cons]
    rcases List.mem_cons.mp hmem with heq | hmem2
    · rw [← heq]
      simp
    · by_cases he : e.1 = k
      · exfalso
        apply hnd.1
        rw [he]
        exact List.mem_map_of_mem Prod.fst hmem2
      · rw [if_neg he]
        exact ih hnd.2 hmem2

theorem mem_of_alookup_eq_some {β : Type} (l : List (String × β))
    (k : String) (v : β) (h : alookup l k = some v) : (k, v) ∈ l := by
  unfold alookup at h
  cases hf : l.find? (fun e => e.1 = k) with
  | none => rw [hf] at h; cases h
  | some e =>
    rw [hf] at h
    have he : e ∈ l := List.mem_of_find?_eq_some hf
    have hk : e.1 = k := by simpa using List.find?_some hf
    cases h
    show (k, e.2) ∈ l
    rw [← hk]
    exact he

theorem mem_insFold (l : List String) :
    ∀ (acc : List String) (x : String),
      x ∈ l.foldl insertFresh acc ↔ x ∈ acc ∨ x ∈ l := by
  induction l with
  | nil => intro acc x; simp
  | cons a rest ih =>
    intro acc x
    rw [List.foldl_cons, ih, mem_insertFresh]
    simp only [List.mem_cons]
    constructor
    · rintro (⟨h1 | rfl⟩ | h2)
      · exact Or.inl h1
      · exact Or.inr (Or.inl rfl)
      · exact Or.inr (Or.inr h2)
    · rintro (h1 | rfl | h2)
      · exact Or.inl (Or.inl h1)
      · exact Or.inl (Or.inr rfl)
      · exact Or.inr h2

theorem nodup_insFold (l : List String) :
    ∀ acc : List String, acc.Nodup → (l.foldl insertFresh acc).Nodup := by
  induction l with
  | nil => intro acc h; exact h
  | cons a rest ih =>
    intro acc h
    exact ih _ (nodup_insertFresh acc a h)

theorem length_insFold_eq_dedup (l : List String) :
    (l.foldl insertFresh []).length = l.dedup.length := by
  refine (List.perm_of_nodup_nodup_toFinset_eq
    (nodup_insFold l [] List.nodup_nil) l.nodup_dedup ?_).length_eq
  ext a
  simp [List.mem_toFinset, mem_insFold, List.mem_dedup]

theorem filterMap_nodup_filter_le_one (f : Paper → Option String)
    (k : String) :
    ∀ l : List Paper, (l.filterMap f).Nodup →
      (l.filter (fun r => f r = some k)).length ≤ 1 := by
  intro l
  induction l with
  | nil => intro _; simp
  | cons r rest ih =>
    intro hnd
    cases hf : f r with
    | none =>
      rw [List.filterMap_cons_none hf] at hnd
      rw [List.filter_cons_of_neg (by simp [hf])]
      exact ih hnd
    | some v =>
      rw [List.filterMap_cons_some hf] at hnd
      rw [List.nodup_cons] at hnd
      by_cases hv : v = k
      · rw [List.filter_cons_of_pos (by simp [hf, hv])]
        have hrest : rest.filter (fun r => f r = some k) = [] := by
          rw [List.filter_eq_nil_iff]
          intro r2 hr2 hbad
          apply hnd.1
          rw [hv]
          exact List.mem_filterMap.mpr ⟨r2, hr2, by simpa using hbad⟩
        rw [List.length_cons, hrest]
        simp
      · rw [List.filter_cons_of_neg (by simp [hf, hv])]
        exact ih hnd.2


theorem buildIndexAnalyze_keys_nodup (rel : SeedEntry → List Paper)
    (papers : List SeedEntry) :
    ((buildIndexAnalyze rel papers).map Prod.fst).Nodup := by
  unfold buildIndexAnalyze
  have inner : ∀ (rs : List Paper) (sr : SeedRef)
      (idx : List (String × OccEntry)), (idx.map Prod.fst).Nodup →
      ((rs.foldl (fun idx r =>
        match get_paper_key_analyze r with
        | none => idx
        | some k2 => addOccurrence idx k2 r sr) idx).map Prod.fst).Nodup := by
    intro rs sr
    induction rs with
    | nil => intro idx h; exact h
    | cons r rest ih =>
      intro idx h
      rw [List.foldl_cons]
      cases hr : get_paper_key_analyze r with
      | none => exact ih idx h
      | some k2 => exact ih _ (aupsert_keys_nodup idx k2 _ _ h)
  have outer : ∀ (papers : List SeedEntry)
      (idx : List (String × OccEntry)), (idx.map Prod.fst).Nodup →
      ((papers.foldl (fun idx entry =>
        match entry.metadata with
        | none => idx
        | some _ =>
          (rel entry).foldl
            (fun idx r =>
              match get_paper_key_analyze r with
              | none => idx
              | some k2 =>
                addOccurrence idx k2 r
                  (entry.input_doi, get_seed_paper_label entry))
            idx) idx).map Prod.fst).Nodup := by
    intro ps
    induction ps with
    | nil => intro idx h; exact h
    | cons s rest ih =>
      intro idx h
      rw [List.foldl_cons]
      cases hm : s.metadata with
      | none => simp only [hm]; exact ih idx h
      | some m => simp only [hm]; exact ih _ (inner _ _ idx h)
  exact outer papers [] (by simp)

theorem key_mem_aggregate_iff (seedKeys : List String)
    (idx : List (String × OccEntry)) (k : Nat) (key : String)
    (hnd : (idx.map Prod.fst).Nodup) :
    key ∈ (aggregate seedKeys idx k).map (fun e => e.key) ↔
      ∃ ent, alookup idx key = some ent ∧ key ∉ seedKeys ∧
        k ≤ ent.seeds.length := by
  rw [List.mem_map]
  constructor
  · rintro ⟨e, he, rfl⟩
    obtain ⟨pr, hpr, h1, h2, rfl⟩ := (mem_aggregate seedKeys idx k e).mp he
    refine ⟨pr.2, ?_, h1, h2⟩
    exact alookup_eq_some_of_mem idx hnd pr.1 pr.2 hpr
  · rintro ⟨ent, hl, h1, h2⟩
    refine ⟨mkAggEntry seedKeys key ent, ?_, rfl⟩
    exact (mem_aggregate seedKeys idx k _).mpr
      ⟨(key, ent), mem_of_alookup_eq_some idx key ent hl, h1, h2, rfl⟩

/-- Left characterization: membership in the analysis result key set in
terms of the seed key set and the raw occurrence count. -/
theorem analyze_cited_keys_char (rel : SeedEntry → List Paper)
    (papers : List SeedEntry) (k : Nat) (hk : 1 ≤ k) (key : String) :
    (key ∈ (aggregate (seedKeysAnalyze papers)
        (buildIndexAnalyze rel papers) k).map (fun e => e.key)) ↔
      (key ∉ seedKeysAnalyze papers ∧ k ≤ occCount rel papers key) := by
  rw [key_mem_aggregate_iff _ _ _ _ (buildIndexAnalyze_keys_nodup rel papers)]
  have hseeds := seedsAt_build rel papers key
  constructor
  · rintro ⟨ent, hl, h1, h2⟩
    refine ⟨h1, ?_⟩
    unfold occCount
    rw [← hseeds]
    unfold seedsAt
    rw [hl]
    exact h2
  · rintro ⟨h1, h2⟩
    cases hl : alookup (buildIndexAnalyze rel papers) key with
    | none =>
      exfalso
      have : seedsAt (buildIndexAnalyze rel papers) key = [] := by
        unfold seedsAt
        rw [hl]
        rfl
      rw [hseeds] at this
      unfold occCount at h2
      rw [this] at h2
      simp at h2
      omega
    | some ent =>
      refine ⟨ent, rfl, h1, ?_⟩
      have : seedsAt (buildIndexAnalyze rel papers) key = ent.seeds := by
        unfold seedsAt
        rw [hl]
        rfl
      unfold occCount at h2
      rw [← hseeds, this] at h2
      exact h2


theorem vizSeedsAt_addOccurrenceSet (idx : List (String × SetEntry))
    (k k2 : String) (r : Paper) (sk : String) :
    vizSeedsAt (addOccurrenceSet idx k2 r sk) k =
      if k = k2 then insertFresh (vizSeedsAt idx k) sk
      else vizSeedsAt idx k := by
  unfold vizSeedsAt addOccurrenceSet
  rw [alookup_aupsert]
  by_cases h : k = k2
  · subst h
    cases alookup idx k <;> simp [insertFresh]
  · rw [if_neg h, if_neg h]

theorem refFold_citIdx (sk : String) (rs : List Paper) :
    ∀ st : VizState, ((rs.foldl
      (fun st r =>
        match get_paper_key_viz r with
        | none => st
        | some refKey =>
          { st with
            refIdx := addOccurrenceSet st.refIdx refKey r sk,
            edges := st.edges ++ [(sk, refKey, "cites")] }) st).citIdx) =
      st.citIdx := by
  induction rs with
  | nil => intro st; rfl
  | cons r rest ih =>
    intro st
    rw [List.foldl_cons]
    cases hr : get_paper_key_viz r with
    | none => exact ih st
    | some refKey => exact ih _

theorem citFold_refIdx (sk : String) (cs : List Paper) :
    ∀ st : VizState, ((cs.foldl
      (fun st c =>
        match get_paper_key_viz c with
        | none => st
        | some citKey =>
          { st with
            citIdx := addOccurrenceSet st.citIdx citKey c sk,
            edges := st.edges ++ [(citKey, sk, "cites")] }) st).refIdx) =
      st.refIdx := by
  induction cs with
  | nil => intro st; rfl
  | cons c rest ih =>
    intro st
    rw [List.foldl_cons]
    cases hc : get_paper_key_viz c with
    | none => exact ih st
    | some citKey => exact ih _

theorem refFold_refIdx_seeds (sk : String) (rs : List Paper) :
    ∀ (st : VizState) (k : String),
      vizSeedsAt ((rs.foldl
        (fun st r =>
          match get_paper_key_viz r with
          | none => st
          | some refKey =>
            { st with
              refIdx := addOccurrenceSet st.refIdx refKey r sk,
              edges := st.edges ++ [(sk, refKey, "cites")] }) st).refIdx) k =
      ((rs.filter (fun r => get_paper_key_viz r = some k)).map
        (fun _ => sk)).foldl insertFresh (vizSeedsAt st.refIdx k) := by
  induction rs with
  | nil => intro st k; rfl
  | cons r rest ih =>
    intro st k
    rw [List.foldl_cons]
    cases hr : get_paper_key_viz r with
    | none =>
      rw [ih st k]
      rw [List.filter_cons_of_neg (by simp [hr])]
    | some k2 =>
      rw [ih _ k]
      show ((rest.filter _).map _).foldl insertFresh
        (vizSeedsAt (addOccurrenceSet st.refIdx k2 r sk) k) = _
      rw [vizSeedsAt_addOccurrenceSet]
      by_cases hkk : k = k2
      · subst hkk
        rw [if_pos rfl, List.filter_cons_of_pos (by simp [hr]),
          List.map_cons, List.foldl_cons]
      · rw [if_neg hkk, List.filter_cons_of_neg
          (by simp [hr]; exact fun h => hkk h.symm)]

theorem citFold_citIdx_seeds (sk : String) (cs : List Paper) :
    ∀ (st : VizState) (k : String),
      vizSeedsAt ((cs.foldl
        (fun st c =>
          match get_paper_key_viz c with
          | none => st
          | some citKey =>
            { st with
              citIdx := addOccurrenceSet st.citIdx citKey c sk,
              edges := st.edges ++ [(citKey, sk, "cites")] }) st).citIdx) k =
      ((cs.filter (fun c => get_paper_key_viz c = some k)).map
        (fun _ => sk)).foldl insertFresh (vizSeedsAt st.citIdx k) := by
  induction cs with
  | nil => intro st k; rfl
  | cons c rest ih =>
    intro st k
    rw [List.foldl_cons]
    cases hc : get_paper_key_viz c with
    | none =>
      rw [ih st k]
      rw [List.filter_cons_of_neg (by simp [hc])]
    | some k2 =>
      rw [ih _ k]
      show ((rest.filter _).map _).foldl insertFresh
        (vizSeedsAt (addOccurrenceSet st.citIdx k2 c sk) k) = _
      rw [vizSeedsAt_addOccurrenceSet]
      by_cases hkk : k = k2
      · subst hkk
        rw [if_pos rfl, List.filter_cons_of_pos (by simp [hc]),
          List.map_cons, List.foldl_cons]
      · rw [if_neg hkk, List.filter_cons_of_neg
          (by simp [hc]; exact fun h => hkk h.symm)]

theorem vizBuild_refIdx_seeds_aux (papers : List SeedEntry) :
    ∀ (st : VizState) (k : String),
      vizSeedsAt ((papers.foldl vizStep st).refIdx) k =
        (contribListViz (fun p => p.references) papers k).foldl
          insertFresh (vizSeedsAt st.refIdx k) := by
  induction papers with
  | nil => intro st k; rfl
  | cons s rest ih =>
    intro st k
    rw [List.foldl_cons]
    show vizSeedsAt ((rest.foldl vizStep (vizStep st s)).refIdx) k = _
    rw [ih (vizStep st s) k]
    unfold vizStep
    cases hs : vizSeedKey s with
    | none =>
      rw [show contribListViz (fun p => p.references) (s :: rest) k =
        contribListViz (fun p => p.references) rest k from by
          unfold contribListViz
          simp [hs]]
    | some sk =>
      rw [citFold_refIdx, refFold_refIdx_seeds]
      rw [show contribListViz (fun p => p.references) (s :: rest) k =
        ((s.references.filter (fun r => get_paper_key_viz r = some k)).map
          (fun _ => sk)) ++ contribListViz (fun p => p.references) rest k
        from by
          unfold contribListViz
          simp [hs]]
      rw [List.foldl_append]

theorem vizBuild_citIdx_seeds_aux (papers : List SeedEntry) :
    ∀ (st : VizState) (k : String),
      vizSeedsAt ((papers.foldl vizStep st).citIdx) k =
        (contribListViz (fun p => p.cited_by) papers k).foldl
          insertFresh (vizSeedsAt st.citIdx k) := by
  induction papers with
  | nil => intro st k; rfl
  | cons s rest ih =>
    intro st k
    rw [List.foldl_cons]
    show vizSeedsAt ((rest.foldl vizStep (vizStep st s)).citIdx) k = _
    rw [ih (vizStep st s) k]
    unfold vizStep
    cases hs : vizSeedKey s with
    | none =>
      rw [show contribListViz (fun p => p.cited_by) (s :: rest) k =
        contribListViz (fun p => p.cited_by) rest k from by
          unfold contribListViz
          simp [hs]]
    | some sk =>
      rw [citFold_citIdx_seeds, refFold_citIdx]
      rw [show contribListViz (fun p => p.cited_by) (s :: rest) k =
        ((s.cited_by.filter (fun c => get_paper_key_viz c = some k)).map
          (fun _ => sk)) ++ contribListViz (fun p => p.cited_by) rest k
        from by
          unfold contribListViz
          simp [hs]]
      rw [List.foldl_append]


theorem vizBuild_refIdx_keys_nodup (papers : List SeedEntry) :
    (((vizBuild papers).refIdx).map Prod.fst).Nodup := by
  unfold vizBuild
  refine foldl_preserve
    (fun (st : VizState) => ((st.refIdx).map Prod.fst).Nodup)
    vizStep ?_ papers {} (by simp)
  intro st entry h
  unfold vizStep
  cases hs : vizSeedKey entry with
  | none => exact h
  | some sk =>
    rw [citFold_refIdx]
    refine foldl_preserve
      (fun (st : VizState) => ((st.refIdx).map Prod.fst).Nodup)
      _ ?_ entry.references st h
    intro st2 r h2
    cases hr : get_paper_key_viz r with
    | none => exact h2
    | some refKey =>
      show ((addOccurrenceSet st2.refIdx refKey r sk).map Prod.fst).Nodup
      exact aupsert_keys_nodup _ _ _ _ h2

theorem vizBuild_citIdx_keys_nodup (papers : List SeedEntry) :
    (((vizBuild papers).citIdx).map Prod.fst).Nodup := by
  unfold vizBuild
  refine foldl_preserve
    (fun (st : VizState) => ((st.citIdx).map Prod.fst).Nodup)
    vizStep ?_ papers {} (by simp)
  intro st entry h
  unfold vizStep
  cases hs : vizSeedKey entry with
  | none => exact h
  | some sk =>
    have h1 : (((entry.references.foldl
        (fun st r =>
          match get_paper_key_viz r with
          | none => st
          | some refKey =>
            { st with
              refIdx := addOccurrenceSet st.refIdx refKey r sk,
              edges := st.edges ++ [(sk, refKey, "cites")] }) st).citIdx).map
        Prod.fst).Nodup := by
      rw [refFold_citIdx]
      exact h
    refine foldl_preserve
      (fun (st : VizState) => ((st.citIdx).map Prod.fst).Nodup)
      _ ?_ entry.cited_by _ h1
    intro st2 c h2
    cases hc : get_paper_key_viz c with
    | none => exact h2
    | some citKey =>
      show ((addOccurrenceSet st2.citIdx citKey c sk).map Prod.fst).Nodup
      exact aupsert_keys_nodup _ _ _ _ h2

/-- `key in seed_papers` in the visualization equals the existence of a
document entry whose metadata resolves to `key`. -/
theorem alookup_vizSeedPapers_none_iff (papers : List SeedEntry)
    (key : String) :
    alookup (vizSeedPapers papers) key = none ↔
      ∀ s ∈ papers, vizSeedKey s ≠ some key := by
  unfold vizSeedPapers
  suffices h : ∀ acc : List (String × VizNode),
      alookup (papers.foldl
        (fun acc entry =>
          match entry.metadata with
          | none => acc
          | some m =>
            match get_paper_key_viz m with
            | none => acc
            | some k =>
              aset acc k
                { key := k,
                  doi := some entry.input_doi,
                  title := m.title.getD "Unknown",
                  authors := m.authors,
                  year := m.year,
                  venue := m.venue.getD "" }) acc) key = none ↔
        (alookup acc key = none ∧ ∀ s ∈ papers, vizSeedKey s ≠ some key) by
    rw [h []]
    simp [alookup_nil]
  induction papers with
  | nil => intro acc; simp
  | cons s rest ih =>
    intro acc
    rw [List.foldl_cons]
    cases hm : s.metadata with
    | none =>
      simp only [hm]
      rw [ih acc]
      have hv : vizSeedKey s = none := by
        unfold vizSeedKey
        rw [hm]
        rfl
      constructor
      · rintro ⟨h1, h2⟩
        refine ⟨h1, ?_⟩
        intro x hx
        rcases List.mem_cons.mp hx with rfl | hx2
        · rw [hv]; exact fun hh => Option.noConfusion hh
        · exact h2 x hx2
      · rintro ⟨h1, h2⟩
        exact ⟨h1, fun x hx => h2 x (List.mem_cons_of_mem s hx)⟩
    | some m =>
      simp only [hm]
      cases hk : get_paper_key_viz m with
      | none =>
        rw [ih acc]
        have hv : vizSeedKey s = none := by
          unfold vizSeedKey
          rw [hm]
          exact hk
        constructor
        · rintro ⟨h1, h2⟩
          refine ⟨h1, ?_⟩
          intro x hx
          rcases List.mem_cons.mp hx with rfl | hx2
          · rw [hv]; exact fun hh => Option.noConfusion hh
          · exact h2 x hx2
        · rintro ⟨h1, h2⟩
          exact ⟨h1, fun x hx => h2 x (List.mem_cons_of_mem s hx)⟩
      | some k =>
        rw [ih]
        rw [alookup_aset]
        have hv : vizSeedKey s = some k := by
          unfold vizSeedKey
          rw [hm]
          exact hk
        by_cases hkey : key = k
        · subst hkey
          constructor
          · rintro ⟨h1, h2⟩
            rw [if_pos rfl] at h1
            exact absurd h1 (by simp)
          · rintro ⟨h1, h2⟩
            exact absurd hv (h2 s (List.mem_cons_self s rest))
        · rw [if_neg hkey]
          constructor
          · rintro ⟨h1, h2⟩
            refine ⟨h1, ?_⟩
            intro x hx
            rcases List.mem_cons.mp hx with rfl | hx2
            · rw [hv]
              intro hh
              exact hkey (Option.some.inj hh).symm
            · exact h2 x hx2
          · rintro ⟨h1, h2⟩
            exact ⟨h1, fun x hx => h2 x (List.mem_cons_of_mem s hx)⟩

theorem key_mem_vizFilter_iff (sp : List (String × VizNode))
    (idx : List (String × SetEntry)) (k : Nat) (key : String)
    (hnd : (idx.map Prod.fst).Nodup) :
    key ∈ (vizFilter sp idx k).map Prod.fst ↔
      ∃ ent, alookup idx key = some ent ∧ k ≤ ent.seeds.length ∧
        alookup sp key = none := by
  unfold vizFilter
  rw [List.mem_map]
  constructor
  · rintro ⟨x, hx, rfl⟩
    obtain ⟨pr, hpr, hf⟩ := List.mem_filterMap.mp hx
    by_cases hc : k ≤ pr.2.seeds.length ∧ alookup sp pr.1 = none
    · rw [if_pos hc] at hf
      have hx1 : x.1 = pr.1 := by
        rw [← Option.some.inj hf]
      rw [hx1]
      refine ⟨pr.2, ?_, hc.1, hc.2⟩
      exact alookup_eq_some_of_mem idx hnd pr.1 pr.2
        (by rw [show (pr.1, pr.2) = pr from rfl]; exact hpr)
    · rw [if_neg hc] at hf
      exact absurd hf (by simp)
  · rintro ⟨ent, hl, h1, h2⟩
    refine ⟨(key,
      { key := key,
        title := (ent.metadata.getD defaultPaper).title.getD "Unknown",
        authors := (ent.metadata.getD defaultPaper).authors,
        year := (ent.metadata.getD defaultPaper).year,
        venue := (ent.metadata.getD defaultPaper).venue.getD "",
        count := some ent.seeds.length }), ?_, rfl⟩
    refine List.mem_filterMap.mpr ⟨(key, ent),
      mem_of_alookup_eq_some idx key ent hl, ?_⟩
    rw [if_pos ⟨h1, h2⟩]

/-- Right characterization: membership in the visualization cited node
partition in terms of `seed_papers` and the deduplicated contributing
seed-key list. -/
theorem viz_cited_keys_char (papers : List SeedEntry) (k : Nat)
    (hk : 1 ≤ k) (key : String) :
    key ∈ (vizFilter (vizSeedPapers papers) (vizBuild papers).refIdx
        k).map Prod.fst ↔
      (alookup (vizSeedPapers papers) key = none ∧
        k ≤ (contribListViz (fun p => p.references) papers
          key).dedup.length) := by
  rw [key_mem_vizFilter_iff _ _ _ _ (vizBuild_refIdx_keys_nodup papers)]
  have hseeds : vizSeedsAt (vizBuild papers).refIdx key =
      (contribListViz (fun p => p.references) papers key).foldl
        insertFresh [] := by
    have := vizBuild_refIdx_seeds_aux papers {} key
    unfold vizBuild
    rw [this]
    rfl
  constructor
  · rintro ⟨ent, hl, h1, h2⟩
    refine ⟨h2, ?_⟩
    rw [← length_insFold_eq_dedup, ← hseeds]
    unfold vizSeedsAt
    rw [hl]
    exact h1
  · rintro ⟨h2, h1⟩
    cases hl : alookup (vizBuild papers).refIdx key with
    | none =>
      exfalso
      have hz : vizSeedsAt (vizBuild papers).refIdx key = [] := by
        unfold vizSeedsAt
        rw [hl]
        rfl
      rw [hseeds] at hz
      rw [← length_insFold_eq_dedup, hz] at h1
      simp at h1
      omega
    | some ent =>
      refine ⟨ent, rfl, ?_, h2⟩
      have hz : vizSeedsAt (vizBuild papers).refIdx key = ent.seeds := by
        unfold vizSeedsAt
        rw [hl]
        rfl
      rw [← length_insFold_eq_dedup, ← hseeds, hz] at h1
      exact h1

/-- Right characterization for the citing node partition. -/
theorem viz_citing_keys_char (papers : List SeedEntry) (k : Nat)
    (hk : 1 ≤ k) (key : String) :
    key ∈ (vizFilter (vizSeedPapers papers) (vizBuild papers).citIdx
        k).map Prod.fst ↔
      (alookup (vizSeedPapers papers) key = none ∧
        k ≤ (contribListViz (fun p => p.cited_by) papers
          key).dedup.length) := by
  rw [key_mem_vizFilter_iff _ _ _ _ (vizBuild_citIdx_keys_nodup papers)]
  have hseeds : vizSeedsAt (vizBuild papers).citIdx key =
      (contribListViz (fun p => p.cited_by) papers key).foldl
        insertFresh [] := by
    have := vizBuild_citIdx_seeds_aux papers {} key
    unfold vizBuild
    rw [this]
    rfl
  constructor
  · rintro ⟨ent, hl, h1, h2⟩
    refine ⟨h2, ?_⟩
    rw [← length_insFold_eq_dedup, ← hseeds]
    unfold vizSeedsAt
    rw [hl]
    exact h1
  · rintro ⟨h2, h1⟩
    cases hl : alookup (vizBuild papers).citIdx key with
    | none =>
      exfalso
      have hz : vizSeedsAt (vizBuild papers).citIdx key = [] := by
        unfold vizSeedsAt
        rw [hl]
        rfl
      rw [hseeds] at hz
      rw [← length_insFold_eq_dedup, hz] at h1
      simp at h1
      omega
    | some ent =>
      refine ⟨ent, rfl, ?_, h2⟩
      have hz : vizSeedsAt (vizBuild papers).citIdx key = ent.seeds := by
        unfold vizSeedsAt
        rw [hl]
        rfl
      rw [← length_insFold_eq_dedup, ← hseeds, hz] at h1
      exact h1


theorem mem_contribListViz_filterMap (rel : SeedEntry → List Paper)
    (papers : List SeedEntry) (key x : String)
    (hx : x ∈ contribListViz rel papers key) :
    x ∈ papers.filterMap vizSeedKey := by
  unfold contribListViz at hx
  obtain ⟨s, hs, hxs⟩ := List.mem_flatMap.mp hx
  cases hv : vizSeedKey s with
  | none =>
    rw [hv] at hxs
    exact absurd hxs (by simp)
  | some sk =>
    rw [hv] at hxs
    obtain ⟨r, hr, rfl⟩ := List.mem_map.mp hxs
    exact List.mem_filterMap.mpr ⟨s, hs, hv⟩

theorem contribListViz_nodup (rel : SeedEntry → List Paper) (key : String) :
    ∀ papers : List SeedEntry,
      (papers.filterMap vizSeedKey).Nodup →
      (∀ s ∈ papers, ((rel s).filter
        (fun r => get_paper_key_viz r = some key)).length ≤ 1) →
      (contribListViz rel papers key).Nodup := by
  intro papers
  induction papers with
  | nil => intro h1 h2; exact List.nodup_nil
  | cons s rest ih =>
    intro hnd hle
    cases hv : vizSeedKey s with
    | none =>
      have hstep : contribListViz rel (s :: rest) key =
          contribListViz rel rest key := by
        unfold contribListViz
        simp only [List.flatMap_cons]
        rw [hv]
        rfl
      rw [hstep]
      simp only [List.filterMap_cons, hv] at hnd
      exact ih hnd (fun x hx => hle x (List.mem_cons_of_mem s hx))
    | some sk =>
      have hstep : contribListViz rel (s :: rest) key =
          ((rel s).filter (fun r => get_paper_key_viz r = some key)).map
            (fun _ => sk) ++ contribListViz rel rest key := by
        unfold contribListViz
        simp only [List.flatMap_cons]
        rw [hv]
      rw [hstep]
      simp only [List.filterMap_cons, hv] at hnd
      rw [List.nodup_cons] at hnd
      obtain ⟨hsk, hndr⟩ := hnd
      have hrest : (contribListViz rel rest key).Nodup :=
        ih hndr (fun x hx => hle x (List.mem_cons_of_mem s hx))
      have hlen := hle s (List.mem_cons_self s rest)
      cases hfe : (rel s).filter (fun r => get_paper_key_viz r = some key) with
      | nil =>
        simpa using hrest
      | cons r rs =>
        rw [hfe] at hlen
        have hnil : rs = [] := by
          cases rs with
          | nil => rfl
          | cons b bs => simp at hlen
        subst hnil
        show (sk :: contribListViz rel rest key).Nodup
        rw [List.nodup_cons]
        refine ⟨?_, hrest⟩
        intro hbad
        exact hsk (mem_contribListViz_filterMap rel rest key sk hbad)

theorem occCount_eq_contribListViz_length (rel : SeedEntry → List Paper)
    (key : String) :
    ∀ papers : List SeedEntry,
      (∀ s ∈ papers, s.metadata ≠ none → vizSeedKey s ≠ none) →
      (∀ s ∈ papers, (s |> rel).filter
          (fun r => get_paper_key_analyze r = some key) =
        (s |> rel).filter (fun r => get_paper_key_viz r = some key)) →
      occCount rel papers key = (contribListViz rel papers key).length := by
  intro papers
  induction papers with
  | nil => intro h1 h2; rfl
  | cons s rest ih =>
    intro h1 h2
    have hr : occCount rel rest key =
        (contribListViz rel rest key).length :=
      ih (fun x hx => h1 x (List.mem_cons_of_mem s hx))
        (fun x hx => h2 x (List.mem_cons_of_mem s hx))
    unfold occCount at hr ⊢
    cases hm : s.metadata with
    | none =>
      have hv : vizSeedKey s = none := by
        unfold vizSeedKey
        rw [hm]
        rfl
      have ho : occList rel (s :: rest) key = occList rel rest key := by
        unfold occList
        simp only [List.flatMap_cons]
        rw [hm]
        rfl
      have hc : contribListViz rel (s :: rest) key =
          contribListViz rel rest key := by
        unfold contribListViz
        simp only [List.flatMap_cons]
        rw [hv]
        rfl
      rw [ho, hc, hr]
    | some m =>
      have hvs : ∃ sk, vizSeedKey s = some sk := by
        have hne := h1 s (List.mem_cons_self s rest)
          (by rw [hm]; exact fun h => Option.noConfusion h)
        cases hvv : vizSeedKey s with
        | none => exact absurd hvv hne
        | some sk => exact ⟨sk, rfl⟩
      obtain ⟨sk, hsk⟩ := hvs
      have ho : occList rel (s :: rest) key =
          ((rel s).filter (fun r => get_paper_key_analyze r = some key)).map
            (fun _ => (s.input_doi, get_seed_paper_label s)) ++
          occList rel rest key := by
        unfold occList
        simp only [List.flatMap_cons]
        rw [hm]
      have hc : contribListViz rel (s :: rest) key =
          ((rel s).filter (fun r => get_paper_key_viz r = some key)).map
            (fun _ => sk) ++ contribListViz rel rest key := by
        unfold contribListViz
        simp only [List.flatMap_cons]
        rw [hsk]
      rw [ho, hc, List.length_append, List.length_append, List.length_map,
        List.length_map, hr, h2 s (List.mem_cons_self s rest)]


set_option maxHeartbeats 1000000 in
/-- C3 (amended): the Aggregator's result key sets and the
GraphBuilder's filtered node partitions agree only under extra
hypotheses making the two entry points' key derivations coincide: every
seed metadata record resolves to a key (H1), the analysis and
visualization key functions agree on every record of the document (H2),
the seed keys are pairwise distinct (H3), and no relation list of a
seed resolves two entries to the same key (H4).  Then, for thresholds
at least 1, a key lies in the cited (resp. citing) result list of
`analyze_citations` iff it lies in the cited (resp. citing) node
partition of `analyze_for_graph` at the same threshold.  Without these
hypotheses the sets differ (see the counterexample). -/
theorem c3_partitions_agree_amended (papers : List SeedEntry)
    (k_cited k_citing : Nat) (hkc : 1 ≤ k_cited) (hkk : 1 ≤ k_citing)
    (H1 : ∀ s ∈ papers, ∀ m ∈ s.metadata.toList,
      get_paper_key_analyze m ≠ none)
    (H2 : ∀ p ∈ allRecords papers,
      get_paper_key_analyze p = get_paper_key_viz p)
    (H3 : (papers.filterMap
      (fun s => s.metadata.bind get_paper_key_analyze)).Nodup)
    (H4 : ∀ s ∈ papers,
      (s.references.filterMap get_paper_key_analyze).Nodup ∧
      (s.cited_by.filterMap get_paper_key_analyze).Nodup)
    (key : String) :
    (key ∈ ((analyze_citations papers k_cited k_citing).1.map
        (fun e => e.key)) ↔
      key ∈ ((analyze_for_graph papers k_cited
        k_citing).cited_papers.map Prod.fst)) ∧
    (key ∈ ((analyze_citations papers k_cited k_citing).2.map
        (fun e => e.key)) ↔
      key ∈ ((analyze_for_graph papers k_cited
        k_citing).citing_papers.map Prod.fst)) := by
  have hmEq : ∀ s ∈ papers, ∀ m, s.metadata = some m →
      get_paper_key_analyze m = get_paper_key_viz m := by
    intro s hs m hm
    refine H2 m ?_
    unfold allRecords
    refine List.mem_flatMap.mpr ⟨s, hs, ?_⟩
    rw [hm]
    simp
  have hrEq : ∀ s ∈ papers, ∀ r ∈ s.references,
      get_paper_key_analyze r = get_paper_key_viz r := by
    intro s hs r hr
    refine H2 r ?_
    unfold allRecords
    exact List.mem_flatMap.mpr ⟨s, hs, by simp [hr]⟩
  have hcEq : ∀ s ∈ papers, ∀ c ∈ s.cited_by,
      get_paper_key_analyze c = get_paper_key_viz c := by
    intro s hs c hc
    refine H2 c ?_
    unfold allRecords
    exact List.mem_flatMap.mpr ⟨s, hs, by simp [hc]⟩
  have hbindEq : ∀ s ∈ papers,
      s.metadata.bind get_paper_key_analyze = vizSeedKey s := by
    intro s hs
    unfold vizSeedKey
    cases hm : s.metadata with
    | none => rfl
    | some m => exact hmEq s hs m hm
  have hndViz : (papers.filterMap vizSeedKey).Nodup := by
    have heq : papers.filterMap
        (fun s => s.metadata.bind get_paper_key_analyze) =
        papers.filterMap vizSeedKey :=
      List.filterMap_congr (fun s hs => hbindEq s hs)
    rw [← heq]
    exact H3
  have hseedEquiv : (key ∉ seedKeysAnalyze papers) ↔
      alookup (vizSeedPapers papers) key = none := by
    rw [alookup_vizSeedPapers_none_iff]
    constructor
    · intro hno s hs hv
      refine hno ((mem_seedKeysAnalyze papers key).mpr ?_)
      have hb : s.metadata.bind get_paper_key_analyze = some key :=
        (hbindEq s hs).trans hv
      cases hm : s.metadata with
      | none =>
        rw [hm] at hb
        exact absurd hb (by simp)
      | some m =>
        rw [hm] at hb
        exact ⟨s, hs, m, hm, hb⟩
    · intro hall hmem
      obtain ⟨s, hs, m, hm, hk⟩ := (mem_seedKeysAnalyze papers key).mp hmem
      refine hall s hs ?_
      rw [← hbindEq s hs, hm]
      exact hk
  have hv1 : ∀ s ∈ papers, s.metadata ≠ none → vizSeedKey s ≠ none := by
    intro s hs hmne
    cases hm : s.metadata with
    | none => exact absurd hm hmne
    | some m =>
      have hk1 : get_paper_key_analyze m ≠ none :=
        H1 s hs m (by rw [hm]; simp)
      rw [← hbindEq s hs, hm]
      exact hk1
  have hfiltR : ∀ s ∈ papers,
      (s.references.filter (fun r => get_paper_key_analyze r = some key)) =
      (s.references.filter (fun r => get_paper_key_viz r = some key)) := by
    intro s hs
    refine List.filter_congr ?_
    intro r hr
    rw [hrEq s hs r hr]
  have hfiltC : ∀ s ∈ papers,
      (s.cited_by.filter (fun r => get_paper_key_analyze r = some key)) =
      (s.cited_by.filter (fun r => get_paper_key_viz r = some key)) := by
    intro s hs
    refine List.filter_congr ?_
    intro c hc
    rw [hcEq s hs c hc]
  have hcountR : occCount (fun p => p.references) papers key =
      (contribListViz (fun p => p.references) papers key).dedup.length := by
    have hnodup : (contribListViz (fun p => p.references)
        papers key).Nodup := by
      refine contribListViz_nodup _ key papers hndViz ?_
      intro s hs
      rw [← hfiltR s hs]
      exact filterMap_nodup_filter_le_one get_paper_key_analyze key
        s.references (H4 s hs).1
    rw [List.dedup_eq_self.mpr hnodup]
    exact occCount_eq_contribListViz_length _ key papers hv1 hfiltR
  have hcountC : occCount (fun p => p.cited_by) papers key =
      (contribListViz (fun p => p.cited_by) papers key).dedup.length := by
    have hnodup : (contribListViz (fun p => p.cited_by)
        papers key).Nodup := by
      refine contribListViz_nodup _ key papers hndViz ?_
      intro s hs
      rw [← hfiltC s hs]
      exact filterMap_nodup_filter_le_one get_paper_key_analyze key
        s.cited_by (H4 s hs).2
    rw [List.dedup_eq_self.mpr hnodup]
    exact occCount_eq_contribListViz_length _ key papers hv1 hfiltC
  have hA1 : (analyze_citations papers k_cited k_citing).1 =
      aggregate (seedKeysAnalyze papers)
        (buildIndexAnalyze (fun p => p.references) papers) k_cited := rfl
  have hA2 : (analyze_citations papers k_cited k_citing).2 =
      aggregate (seedKeysAnalyze papers)
        (buildIndexAnalyze (fun p => p.cited_by) papers) k_citing := rfl
  have hG1 : (analyze_for_graph papers k_cited k_citing).cited_papers =
      vizFilter (vizSeedPapers papers) (vizBuild papers).refIdx
        k_cited := rfl
  have hG2 : (analyze_for_graph papers k_cited k_citing).citing_papers =
      vizFilter (vizSeedPapers papers) (vizBuild papers).citIdx
        k_citing := rfl
  constructor
  · rw [hA1, hG1, analyze_cited_keys_char _ papers k_cited hkc key,
      viz_cited_keys_char papers k_cited hkc key, hseedEquiv, hcountR]
  · rw [hA2, hG2, analyze_cited_keys_char _ papers k_citing hkk key,
      viz_citing_keys_char papers k_citing hkk key, hseedEquiv, hcountC]

/-- C3 counterexample: on a document whose single reference record
carries both a title and a DOI, the analysis keys the reference by
normalized title while the visualization keys it by DOI, so at
threshold 1 the cited-result key set of `analyze_citations` and the
cited node partition of `analyze_for_graph` differ. -/
theorem c3_partitions_counterexample :
    "title:paper x" ∈ ((analyze_citations docTitleDoi 1 1).1.map
      (fun e => e.key)) ∧
    "title:paper x" ∉ ((analyze_for_graph docTitleDoi
      1 1).cited_papers.map Prod.fst) := by
  decide

/-- Witness: on an all-DOI document the hypotheses of the amended C3
theorem hold and the partitions agree at the shared reference key. -/
theorem c3_partitions_agree_witness :
    (("doi:10.1/x" ∈ ((analyze_citations docDoiOnly 1 1).1.map
        (fun e => e.key)) ↔
      "doi:10.1/x" ∈ ((analyze_for_graph docDoiOnly
        1 1).cited_papers.map Prod.fst)) ∧
    ("doi:10.1/x" ∈ ((analyze_citations docDoiOnly 1 1).2.map
        (fun e => e.key)) ↔
      "doi:10.1/x" ∈ ((analyze_for_graph docDoiOnly
        1 1).citing_papers.map Prod.fst))) ∧
    "doi:10.1/x" ∈ ((analyze_for_graph docDoiOnly
      1 1).cited_papers.map Prod.fst) :=
  ⟨c3_partitions_agree_amended docDoiOnly 1 1 (by decide) (by decide)
    (by decide) (by decide) (by decide) (by decide) "doi:10.1/x",
    by decide⟩

end CitationGraph
